import Mathlib

/-!
Verification of the bibliography manager core (`bibmgr`): a shallow embedding
of the record repository (`repository.py`), the SQLite/FTS5 index store
(`db.py`, `index.py`), the query translator (`query.py`) and the search engine
(`scripts/search.py`), together with proofs and refutations of the spec claims.

Strings are modelled as `List Char` internally (Python `str`), file paths as
plain strings, SQLite rowids as `Nat`, and SQL `REAL` scores as `ℚ` (all score
arithmetic in scope is exact decimal arithmetic).
-/

namespace Bibmgr

/-- A single-quote character as a string (used to build warning/error texts). -/
def sq : String := (Char.ofNat 39).toString

/-- Left-brace character (written via code point). -/
def lbrace : Char := Char.ofNat 123

/-- Right-brace character (written via code point). -/
def rbrace : Char := Char.ofNat 125

/-- Python regex `\w` on ASCII: letters, digits, underscore. -/
def isWordChar (c : Char) : Bool := c.isAlphanum || c == '_'

/-- Python `\s` / `str.split()` whitespace on ASCII:
space, tab, newline, carriage return, vertical tab, form feed. -/
def pyIsSpace (c : Char) : Bool :=
  c == ' ' || c == '\t' || c == '\n' || c == '\r' ||
  c == Char.ofNat 11 || c == Char.ofNat 12

/-- Python `str.lower()` on ASCII (character-by-character, kept
kernel-reducible). -/
def strToLower (s : String) : String := String.mk (s.toList.map Char.toLower)

/-- Python `str.strip()`. -/
def pyStripL (l : List Char) : List Char :=
  ((l.dropWhile pyIsSpace).reverse.dropWhile pyIsSpace).reverse

/-- Worker for `collapseWsL`; each step consumes at least one character, so
the wrapper supplies enough fuel for the recursion never to run out (the
fuel-exhausted branch is unreachable). Structural recursion on fuel keeps the
function kernel-reducible. -/
def collapseWsGo : Nat → List Char → List Char
  | 0, _ => []
  | _ + 1, [] => []
  | fuel + 1, c :: cs =>
    if pyIsSpace c then ' ' :: collapseWsGo fuel (cs.dropWhile pyIsSpace)
    else c :: collapseWsGo fuel cs

/-- `re.sub(r"\s+", " ", s)`: each maximal whitespace run becomes one space. -/
def collapseWsL (l : List Char) : List Char :=
  collapseWsGo (l.length + 1) l

/-- Case-insensitive match of a lowercase pattern against the head of the
input; returns the remaining input on success. -/
def matchesCI : List Char → List Char → Option (List Char)
  | [], rest => some rest
  | _ :: _, [] => none
  | p :: ps, c :: cs => if c.toLower == p then matchesCI ps cs else none

/-- `re.sub(rf"\b{op}\b", OP, s, flags=IGNORECASE)` for an all-word-char
operator word: left-to-right scan, replacing boundary-delimited
case-insensitive occurrences. `prev` is the character before the current
position (for the left word boundary). -/
def subWordCIGo (patLow patUp : List Char) : Nat → Option Char → List Char → List Char
  | 0, _, l => l
  | _ + 1, _, [] => []
  | fuel + 1, prev, c :: cs =>
    let boundaryOk := match prev with
      | none => true
      | some p => !(isWordChar p)
    match (if boundaryOk then matchesCI patLow (c :: cs) else none) with
    | some rest =>
      match rest with
      | [] => patUp
      | r :: _ =>
        if isWordChar r then c :: subWordCIGo patLow patUp fuel (some c) cs
        else
          patUp ++ subWordCIGo patLow patUp fuel
            (some (((c :: cs).take patLow.length).getLastD c)) rest
    | none => c :: subWordCIGo patLow patUp fuel (some c) cs

/-- Word-boundary case-insensitive replacement of one operator word. -/
def subWordCI (patLow patUp : String) (l : List Char) : List Char :=
  subWordCIGo patLow.toList patUp.toList (l.length + 1) none l

/-- `QueryBuilder._normalize_query`: strip, collapse whitespace, and upper-case
the four boolean operator words (the set iteration order is irrelevant because
the substitutions only change letter case and so commute). -/
def normalizeQueryL (l : List Char) : List Char :=
  subWordCI "near" "NEAR"
    (subWordCI "not" "NOT"
      (subWordCI "or" "OR"
        (subWordCI "and" "AND" (collapseWsL (pyStripL l)))))

/-- `re.search(r"\w+:", q)` succeeds: some word char immediately followed by a
colon. -/
def hasFieldSpecL : List Char → Bool
  | a :: b :: rest => (isWordChar a && (b == ':')) || hasFieldSpecL (b :: rest)
  | _ => false

/-- `QueryBuilder._is_field_query`. -/
def isFieldQueryL (l : List Char) : Bool :=
  l.contains ':' && hasFieldSpecL l

/-- `startswith` on char lists. -/
def startsWithL : List Char → List Char → Bool
  | [], _ => true
  | _ :: _, [] => false
  | p :: ps, c :: cs => p == c && startsWithL ps cs

/-- Substring test (`pat in s`). -/
def containsSubL (pat : List Char) : List Char → Bool
  | [] => pat.isEmpty
  | c :: cs => startsWithL pat (c :: cs) || containsSubL pat cs

/-- `QueryBuilder._is_boolean_query`: any of the FTS operator words occurs as a
plain substring. -/
def isBooleanQueryL (l : List Char) : Bool :=
  containsSubL "AND".toList l || containsSubL "OR".toList l ||
  containsSubL "NOT".toList l || containsSubL "NEAR".toList l

/-- `QueryBuilder._is_phrase_query`. -/
def isPhraseQueryL (l : List Char) : Bool :=
  (match l with
   | c :: _ => c == '"'
   | [] => false) &&
  (match l.getLast? with
   | some c => c == '"'
   | none => false) &&
  decide (l.length > 2)

/-- `QueryBuilder._has_wildcards`. -/
def hasWildcardsL (l : List Char) : Bool :=
  l.contains '*' || l.contains '?'

/-- The recognized FTS5 column names (`QueryBuilder.FTS_COLUMNS`). -/
def ftsColumns : List String :=
  ["key", "title", "author", "abstract", "keywords", "journal", "year"]

/-- The same columns as char lists. -/
def ftsColumnsL : List (List Char) := ftsColumns.map String.toList

/-- The warning emitted for an unrecognized field qualifier. -/
def unknownFieldMsg (field : String) : String :=
  "Unknown field " ++ sq ++ field ++ sq ++ ", searching in all fields"

def buildFieldQueryGo : Nat → List Char → List Char × List String
  | 0, _ => ([], [])
  | _ + 1, [] => ([], [])
  | fuel + 1, c :: cs =>
    if isWordChar c then
      match (c :: cs).dropWhile isWordChar with
      | ':' :: r2 =>
        match r2.takeWhile (fun ch => !pyIsSpace ch) with
        | [] =>
          let p := buildFieldQueryGo fuel r2
          (((c :: cs).takeWhile isWordChar) ++ ':' :: p.1, p.2)
        | v0 :: vrest =>
          let w := (c :: cs).takeWhile isWordChar
          let fieldLow := w.map Char.toLower
          let p := buildFieldQueryGo fuel (r2.dropWhile (fun ch => !pyIsSpace ch))
          if ftsColumnsL.contains fieldLow then
            (lbrace :: fieldLow ++ rbrace :: ':' :: (v0 :: vrest) ++ p.1, p.2)
          else
            ((v0 :: vrest) ++ p.1, unknownFieldMsg (String.mk fieldLow) :: p.2)
      | rest =>
        let p := buildFieldQueryGo fuel rest
        (((c :: cs).takeWhile isWordChar) ++ p.1, p.2)
    else
      let p := buildFieldQueryGo fuel cs
      (c :: p.1, p.2)

/-- `QueryBuilder._build_field_query` (see `buildFieldQueryGo` for the regex
reading): the recursion consumes at least one character per step, so the
supplied fuel is never exhausted. -/
def buildFieldQueryL (l : List Char) : List Char × List String :=
  buildFieldQueryGo (l.length + 1) l

/-- Worker for `pySplitL` (fuel-based structural recursion; the wrapper
supplies enough fuel, each step consuming at least one character). -/
def pySplitGo : Nat → List Char → List (List Char)
  | 0, _ => []
  | _ + 1, [] => []
  | fuel + 1, c :: cs =>
    if pyIsSpace c then pySplitGo fuel cs
    else (c :: cs.takeWhile (fun x => !pyIsSpace x)) ::
      pySplitGo fuel (cs.dropWhile (fun x => !pyIsSpace x))

/-- `str.split()`: split on whitespace runs, no empty parts. -/
def pySplitL (l : List Char) : List (List Char) :=
  pySplitGo (l.length + 1) l

/-- Python `part.endswith("*")`. -/
def endsStar (part : List Char) : Bool :=
  match part.getLast? with
  | some c => c == '*'
  | none => false

/-- The wildcard warning text for one term. -/
def wildMsg (part : String) : String :=
  "FTS5 only supports trailing wildcards, " ++ sq ++ part ++ sq ++
    " may not work as expected"

/-- `QueryBuilder._build_wildcard_query`: rewrite `?` to `*`; if a `*` occurs
before the final character of the query, warn for each whitespace-split term
that contains `*` but does not end with `*`. -/
def buildWildcardQueryL (l : List Char) : List Char × List String :=
  let q := l.map (fun c => if c == '?' then '*' else c)
  let ws :=
    if q.dropLast.contains '*' then
      (pySplitL q).foldl
        (fun acc part =>
          if part.contains '*' && !(endsStar part) then
            acc ++ [wildMsg (String.mk part)]
          else acc) []
    else []
  (q, ws)

/-- `QueryBuilder._build_boolean_query`. -/
def buildBooleanQueryL (l : List Char) : List Char × List String :=
  if isFieldQueryL l then buildFieldQueryL l else (l, [])

/-- `QueryBuilder.build_query` / `parse_query`: returns the FTS5 query and the
accumulated warnings. -/
def parse_query (q : String) : String × List String :=
  if q.toList = [] ∨ pyStripL q.toList = [] then ("", [])
  else
    let nl := normalizeQueryL q.toList
    if isFieldQueryL nl then
      let p := buildFieldQueryL nl
      (String.mk p.1, p.2)
    else if isBooleanQueryL nl then
      let p := buildBooleanQueryL nl
      (String.mk p.1, p.2)
    else if isPhraseQueryL nl then (String.mk nl, [])
    else if hasWildcardsL nl then
      let p := buildWildcardQueryL nl
      (String.mk p.1, p.2)
    else (String.mk nl, [])

/-- Spec-side description of one wildcard warning: a term that contains `*`
and does not end with `*` produces the warning, independently of any global
guard. -/
def wildWarnOpt (part : List Char) : Option String :=
  if part.contains '*' && !(endsStar part) then some (wildMsg (String.mk part))
  else none

/-- Decidable equality of `Except` results (for evaluating operations that
may raise). -/
instance {α β : Type _} [DecidableEq α] [DecidableEq β] : DecidableEq (Except α β)
  | .ok a, .ok b =>
    if h : a = b then isTrue (by rw [h]) else isFalse (by intro hc; cases hc; exact h rfl)
  | .error a, .error b =>
    if h : a = b then isTrue (by rw [h]) else isFalse (by intro hc; cases hc; exact h rfl)
  | .ok _, .error _ => isFalse (by intro hc; cases hc)
  | .error _, .ok _ => isFalse (by intro hc; cases hc)

/-- First-match association-list lookup (Python `dict` access). -/
def alGet {α : Type _} (l : List (String × α)) (k : String) : Option α :=
  (l.find? (fun p => p.1 == k)).map Prod.snd

/-- Association-list store (Python `d[k] = v`): update in place, else append. -/
def alSet {α : Type _} : List (String × α) → String → α → List (String × α)
  | [], k, v => [(k, v)]
  | p :: rest, k, v => if p.1 == k then (k, v) :: rest else p :: alSet rest k v

/-- Association-list removal (Python `d.pop(k, None)`). -/
def alErase {α : Type _} (l : List (String × α)) (k : String) : List (String × α) :=
  l.filter (fun p => !(p.1 == k))

/-- Field maps: Python `dict[str, str | None]` in insertion order. -/
abbrev Fields := List (String × Option String)

/-- `models.BibEntry`. -/
structure BibEntry where
  key : String
  entry_type : String
  fields : Fields
  source_file : String
deriving DecidableEq, Repr

/-! ## Index store (`db.py` / `index.py`)

The SQLite database is modelled by its two row sets. `entries` rows are kept
in ascending rowid order (inserts always append with a fresh maximal id, as
AUTOINCREMENT does); SQL ordering clauses are modelled by explicit sorts.
REAL scores are represented exactly as rationals. -/

/-- A row of the `entries` table. -/
structure EntryRow where
  id : Nat
  key : String
  entry_type : String
  source_file : String
  data : Fields
deriving DecidableEq, Repr

/-- A row of the `entries_fts` FTS5 table. -/
structure FtsRow where
  key : String
  title : String
  author : String
  abstract : String
  keywords : String
  journal : String
  year : String
deriving DecidableEq, Repr

/-- The database state: both row sets plus the AUTOINCREMENT counter
(which a `DELETE` does not reset). -/
structure DbState where
  entries : List EntryRow
  fts : List FtsRow
  nextId : Nat
deriving DecidableEq, Repr

/-- `COALESCE(json_extract(data, k), ...)`: a JSON `null` (a `None` field
value) also falls back to the empty string. -/
def jsonStrField (fs : Fields) (k : String) : String :=
  match alGet fs k with
  | some (some s) => s
  | _ => ""

/-- The searchable projection of a record (the columns the insert trigger
computes). -/
def ftsRowOf (e : BibEntry) : FtsRow :=
  ⟨e.key, jsonStrField e.fields "title", jsonStrField e.fields "author",
   jsonStrField e.fields "abstract", jsonStrField e.fields "keywords",
   jsonStrField e.fields "journal", jsonStrField e.fields "year"⟩

/-- `BibliographyDB.insert_entry`: `INSERT OR REPLACE` deletes a conflicting
row on the UNIQUE `key` column without firing the AFTER DELETE trigger
(SQLite fires delete triggers during REPLACE conflict resolution only when
`recursive_triggers` is enabled, and this connection leaves it off), then
inserts the new row, whose AFTER INSERT trigger appends a projection row. -/
def insert_entry (db : DbState) (e : BibEntry) : DbState :=
  { entries := db.entries.filter (fun r => !(r.key == e.key)) ++
      [⟨db.nextId, e.key, e.entry_type, e.source_file, e.fields⟩],
    fts := db.fts ++ [ftsRowOf e],
    nextId := db.nextId + 1 }

/-- `BibliographyDB.insert_entries_batch`: `executemany` applies the same
`INSERT OR REPLACE` row by row; the chunking parameter only controls commit
granularity and cannot affect the final state, so the fold is over the whole
list. -/
def insert_entries_batch (db : DbState) (es : List BibEntry) : DbState :=
  es.foldl insert_entry db

/-- `BibliographyDB.clear_all`: `DELETE FROM entries`; each deleted row fires
the AFTER DELETE trigger, which removes every projection row with that key.
Projection rows whose key does not occur in `entries` survive. -/
def clear_all (db : DbState) : DbState :=
  { entries := [],
    fts := db.fts.filter (fun r => !((db.entries.map EntryRow.key).contains r.key)),
    nextId := db.nextId }

/-- `BibliographyDB.optimize`: the FTS5 `rebuild`/`optimize` commands and
`VACUUM` reorganize physical storage; neither row set changes. -/
def optimizeDb (db : DbState) : DbState := db

/-- `IndexBuilder.build_index` applied to the repository entry list: clear,
return early when there is nothing to index, otherwise batch-insert (the
progress-bar chunks feed the same batch insert) and optimize. -/
def build_index (repoEntries : List BibEntry) (clearExisting : Bool)
    (db : DbState) : DbState :=
  let db1 := if clearExisting then clear_all db else db
  if repoEntries.isEmpty then db1
  else optimizeDb (insert_entries_batch db1 repoEntries)

/-- `IndexBuilder.check_fts_consistency`: primary row count equals projection
row count. -/
def check_fts_consistency (db : DbState) : Bool :=
  db.entries.length == db.fts.length

/-- Python `abs` on an exact rational. -/
def absQ (r : ℚ) : ℚ := if r < 0 then -r else r

/-- Python `min` on two rationals. -/
def minQ (a b : ℚ) : ℚ := if a ≤ b then a else b

/-- Python `max` on two rationals. -/
def maxQ (a b : ℚ) : ℚ := if a ≤ b then b else a

/-- The display-score normalization `max(0, min(100, 100 - abs(rank) * 10))`. -/
def clampScore (r : ℚ) : ℚ := maxQ 0 (minQ 100 (100 - absQ r * 10))

/-- Stable insertion for `ORDER BY id DESC`. -/
def insertIdDesc (x : EntryRow) : List EntryRow → List EntryRow
  | [] => [x]
  | y :: ys => if y.id ≤ x.id then x :: y :: ys else y :: insertIdDesc x ys

/-- `ORDER BY e.id DESC`. -/
def sortIdDesc (l : List EntryRow) : List EntryRow :=
  l.foldr insertIdDesc []

/-- Stable insertion for `ORDER BY rank DESC`. -/
def insertRankDesc (x : EntryRow × ℚ) : List (EntryRow × ℚ) → List (EntryRow × ℚ)
  | [] => [x]
  | y :: ys => if y.2 ≤ x.2 then x :: y :: ys else y :: insertRankDesc x ys

/-- `ORDER BY rank DESC`. -/
def sortRankDesc (l : List (EntryRow × ℚ)) : List (EntryRow × ℚ) :=
  l.foldr insertRankDesc []

/-- `BibliographyDB._row_to_entry`: JSON round trip of the field map. -/
def rowToEntry (r : EntryRow) : BibEntry :=
  ⟨r.key, r.entry_type, r.data, r.source_file⟩

/-- Python `not query or not query.strip()`. -/
def pyBlankB (q : String) : Bool :=
  q.toList.isEmpty || (pyStripL q.toList).isEmpty

/-- `BibliographyDB.search_fts`. The FTS5 backend (MATCH plus bm25) is an
oracle mapping the query string either to a syntax rejection or to the list of
matching projection keys with their raw rank; the surrounding SQL (the join on
`key`, `ORDER BY rank DESC`, `LIMIT`/`OFFSET`) and the Python code (the blank
branch with its 50.0 rank column, the exception fallback `WHERE 0 = 1`, the
score normalization loop) are modelled directly. -/
def search_fts (db : DbState) (oracle : String → Except Unit (List (String × ℚ)))
    (q : String) (limit offset : Nat) : List (BibEntry × ℚ) :=
  if pyBlankB q then
    (((sortIdDesc db.entries).drop offset).take limit).map
      (fun r => (rowToEntry r, clampScore 50))
  else
    match oracle q with
    | .error _ => []
    | .ok hits =>
      let joined := (hits.map (fun m =>
        (db.entries.filter (fun e => e.key == m.1)).map (fun e => (e, m.2)))).flatten
      (((sortRankDesc joined).drop offset).take limit).map
        (fun p => (rowToEntry p.1, clampScore p.2))

/-- `scripts.search.SearchResult`. -/
structure SearchResult where
  entry : BibEntry
  score : ℚ
deriving DecidableEq, Repr

/-- `SearchEngine._prepare_fts_query`: left-to-right application of
`re.sub(r"(\w+):([^\s:]+)", replace_field, q)`; the value class excludes the
colon, the regex guarantees a nonempty value (the `if not value` branch is
unreachable), and unknown fields are replaced by the bare value without a
warning. -/
def prepareFtsQueryGo : Nat → List Char → List Char
  | 0, _ => []
  | _ + 1, [] => []
  | fuel + 1, c :: cs =>
    if isWordChar c then
      match (c :: cs).dropWhile isWordChar with
      | ':' :: r2 =>
        match r2.takeWhile (fun ch => !(pyIsSpace ch) && !(ch == ':')) with
        | [] => ((c :: cs).takeWhile isWordChar) ++ ':' :: prepareFtsQueryGo fuel r2
        | v0 :: vrest =>
          let fieldLow := ((c :: cs).takeWhile isWordChar).map Char.toLower
          let tl := prepareFtsQueryGo fuel
            (r2.dropWhile (fun ch => !(pyIsSpace ch) && !(ch == ':')))
          if ftsColumnsL.contains fieldLow then
            lbrace :: fieldLow ++ rbrace :: ':' :: (v0 :: vrest) ++ tl
          else (v0 :: vrest) ++ tl
      | rest => ((c :: cs).takeWhile isWordChar) ++ prepareFtsQueryGo fuel rest
    else c :: prepareFtsQueryGo fuel cs

/-- `SearchEngine._prepare_fts_query` on strings. -/
def prepare_fts_query (q : String) : String :=
  String.mk (prepareFtsQueryGo (q.toList.length + 1) q.toList)

/-- `entry.fields.get(k, "") or ""`: both a missing field and a stored `None`
give the empty string. -/
def fieldOrEmpty (e : BibEntry) (k : String) : String :=
  jsonStrField e.fields k

/-- Stable descending insertion on a string key. -/
def insertKeyDesc (k : SearchResult → String) (x : SearchResult) :
    List SearchResult → List SearchResult
  | [] => [x]
  | y :: ys => if k y < k x then x :: y :: ys else y :: insertKeyDesc k x ys

/-- Stable ascending insertion on a string key. -/
def insertKeyAsc (k : SearchResult → String) (x : SearchResult) :
    List SearchResult → List SearchResult
  | [] => [x]
  | y :: ys => if k x ≤ k y then x :: y :: ys else y :: insertKeyAsc k x ys

/-- `SearchEngine._sort_results`: stable sort by year (descending), author or
title (ascending); any other key leaves the list unchanged. -/
def sortResultsBy (rs : List SearchResult) (sortBy : String) : List SearchResult :=
  if sortBy == "year" then
    rs.foldr (insertKeyDesc (fun r => fieldOrEmpty r.entry "year")) []
  else if sortBy == "author" then
    rs.foldr (insertKeyAsc (fun r => fieldOrEmpty r.entry "author")) []
  else if sortBy == "title" then
    rs.foldr (insertKeyAsc (fun r => fieldOrEmpty r.entry "title")) []
  else rs

/-- `SearchEngine.search`: prepare the query, run the FTS search, wrap the
rows, and re-sort client-side unless sorting by relevance. -/
def searchEngineSearch (db : DbState)
    (oracle : String → Except Unit (List (String × ℚ))) (q : String)
    (limit offset : Nat) (sortBy : String) : List SearchResult :=
  let raw := search_fts db oracle (prepare_fts_query q) limit offset
  let results := raw.map (fun p => SearchResult.mk p.1 p.2)
  if sortBy != "relevance" then sortResultsBy results sortBy else results

/-! ## Record store (`repository.py`)

The repository state holds the on-disk `.bib` files (as parsed record lists,
in directory-scan order), the file-to-records cache (a Python dict in
insertion order), the dry-run flag and the optional changeset. Python object
identity matters in exactly one place - `move_entry` assigns
`entry.source_file` on an object that the cache may still reference - and is
modelled positionally there. -/

/-- A record as stored in a `.bib` file: the writer drops `None` field values
and does not store a source path. -/
structure DiskEntry where
  key : String
  entry_type : String
  fields : List (String × String)
deriving DecidableEq, Repr

/-- `repository.ChangeSet` (the `file_operations` list is never appended to by
any repository operation and is omitted). -/
structure ChangeSet where
  added : List BibEntry
  removed : List BibEntry
  updated : List (BibEntry × BibEntry)
deriving DecidableEq, Repr

/-- `repository.Repository` state. -/
structure RepoState where
  root : String
  disk : List (String × List DiskEntry)
  cache : List (String × List BibEntry)
  dryRun : Bool
  changeset : Option ChangeSet
deriving DecidableEq, Repr

/-- `Repository.enable_dry_run`. -/
def enable_dry_run (st : RepoState) : RepoState :=
  { st with dryRun := true, changeset := some ⟨[], [], []⟩ }

/-- `Repository.disable_dry_run`. -/
def disable_dry_run (st : RepoState) : RepoState :=
  { st with dryRun := false, changeset := none }

/-- `Repository.load_file`: parsing a file yields its records with the entry
type lowercased and the source file set; a missing file yields no records. -/
def load_file (st : RepoState) (f : String) : List BibEntry :=
  match alGet st.disk f with
  | none => []
  | some des => des.map (fun d =>
      ⟨d.key, strToLower d.entry_type, d.fields.map (fun p => (p.1, some p.2)), f⟩)

/-- `Repository.load_entries`: without `force_reload`, a nonempty cache is
returned flattened; otherwise every file is re-parsed into a fresh cache. -/
def load_entries (st : RepoState) (forceReload : Bool) : List BibEntry × RepoState :=
  if !forceReload && !st.cache.isEmpty then
    ((st.cache.map Prod.snd).flatten, st)
  else
    let newCache := st.disk.map (fun p => (p.1, load_file st p.1))
    ((newCache.map Prod.snd).flatten, { st with cache := newCache })

/-- `Repository.get_entry`: first record with the key, never an exception. -/
def get_entry (st : RepoState) (key : String) : Option BibEntry × RepoState :=
  let p := load_entries st false
  (p.1.find? (fun e => e.key == key), p.2)

/-- `Repository.get_entries_by_file`: lazily populates the cache bucket. -/
def get_entries_by_file (st : RepoState) (f : String) : List BibEntry × RepoState :=
  match alGet st.cache f with
  | some es => (es, st)
  | none =>
    let es := load_file st f
    (es, { st with cache := alSet st.cache f es })

/-- Python dict equality of two field maps (order-insensitive). -/
def fieldsDictEq (a b : Fields) : Bool :=
  a.all (fun p => alGet b p.1 == some p.2) && b.all (fun p => alGet a p.1 == some p.2)

/-- Serialization for `save_entries`: `None` field values are filtered out. -/
def diskForm (entries : List BibEntry) : List DiskEntry :=
  entries.map (fun e =>
    ⟨e.key, e.entry_type, e.fields.filterMap (fun p => p.2.map (fun v => (p.1, v)))⟩)

/-- Append the diff of one dry-run save to the changeset. -/
def csAppend (cs : ChangeSet) (a r : List BibEntry)
    (u : List (BibEntry × BibEntry)) : ChangeSet :=
  ⟨cs.added ++ a, cs.removed ++ r, cs.updated ++ u⟩

/-- `Repository.save_entries`. In dry-run mode the incoming list is diffed
against the cached previous list for the file (added = keys only in the new
list, removed = keys only in the old list, updated = keys in both whose field
maps differ) and recorded in the changeset; no disk or cache change happens.
Otherwise the file is written atomically (temp file + rename - failures of
the write itself are outside this model) and the cache bucket refreshed. -/
def save_entries (st : RepoState) (entries : List BibEntry) (f : String) : RepoState :=
  if st.dryRun then
    let existing := (alGet st.cache f).getD []
    let existingKeys := existing.map BibEntry.key
    let newKeys := entries.map BibEntry.key
    let added := entries.filter (fun e => !(existingKeys.contains e.key))
    let removed := existing.filter (fun e => !(newKeys.contains e.key))
    let updated := entries.filterMap (fun ne =>
      if existingKeys.contains ne.key then
        match existing.find? (fun e => e.key == ne.key) with
        | some oe => if fieldsDictEq oe.fields ne.fields then none else some (oe, ne)
        | none => none
      else none)
    { st with changeset := st.changeset.map (fun cs => csAppend cs added removed updated) }
  else
    { st with disk := alSet st.disk f (diskForm entries),
              cache := alSet st.cache f entries }

/-- `Repository.find_target_file`. -/
def find_target_file (st : RepoState) (entryType : String) : String :=
  st.root ++ "/bibtex/by-type/" ++ entryType ++ ".bib"

/-- The duplicate-key error message of `Repository.add_entry`. -/
def dupKeyMsg (key src : String) : String :=
  "Entry with key " ++ sq ++ key ++ sq ++ " already exists in " ++ src

/-- `Repository.add_entry`: load the target bucket, check the key against the
flattened cache, and either fail with the duplicate-key error or append the
record (with its source file set to the target) and save. Directory creation
(`mkdir`) is outside the record model. -/
def add_entry (st : RepoState) (entry : BibEntry) (targetFile : Option String) :
    Except String Unit × RepoState :=
  let target := targetFile.getD (find_target_file st entry.entry_type)
  let p1 := get_entries_by_file st target
  let p2 := get_entry p1.2 entry.key
  match p2.1 with
  | some ex => (.error (dupKeyMsg entry.key ex.source_file), p2.2)
  | none =>
    let e := { entry with source_file := target }
    (.ok (), save_entries p2.2 (p1.1 ++ [e]) target)

/-- `Repository.remove_entry`. -/
def remove_entry (st : RepoState) (key : String) : Option BibEntry × RepoState :=
  let p := get_entry st key
  match p.1 with
  | none => (none, p.2)
  | some e =>
    let entries := (alGet p.2.cache e.source_file).getD []
    (some e, save_entries p.2 (entries.filter (fun x => !(x.key == key))) e.source_file)

/-- Apply `update_entry` field changes in mapping order: `None` deletes the
field, a string updates or appends it. -/
def apply_updates (fs : Fields) (updates : List (String × Option String)) : Fields :=
  updates.foldl (fun acc p =>
    match p.2 with
    | none => alErase acc p.1
    | some v => alSet acc p.1 (some v)) fs

/-- `Repository.update_entry`: clone, apply the changes, replace every record
with the key in its owning bucket, save. -/
def update_entry (st : RepoState) (key : String)
    (updates : List (String × Option String)) : Option BibEntry × RepoState :=
  let p := get_entry st key
  match p.1 with
  | none => (none, p.2)
  | some e =>
    let ne := { e with fields := apply_updates e.fields updates }
    let entries := (alGet p.2.cache e.source_file).getD []
    let updatedEntries := entries.map (fun x => if x.key == key then ne else x)
    (some ne, save_entries p.2 updatedEntries e.source_file)

/-- Replace the first record with the key inside one bucket. -/
def replaceFirstInBucket : List BibEntry → String → BibEntry → Option (List BibEntry)
  | [], _, _ => none
  | e :: es, k, ne =>
    if e.key == k then some (ne :: es)
    else (replaceFirstInBucket es k ne).map (fun l => e :: l)

/-- Replace the first record (in cache flatten order) with the key. -/
def mutateFirstWithKey (cache : List (String × List BibEntry)) (k : String)
    (ne : BibEntry) : List (String × List BibEntry) :=
  match cache with
  | [] => []
  | b :: bs =>
    match replaceFirstInBucket b.2 k ne with
    | some l => (b.1, l) :: bs
    | none => b :: mutateFirstWithKey bs k ne

/-- `Repository.move_entry`: look the record up, return it unchanged when it
is already in the target file, otherwise save its source file without it and
re-add it via `add_entry`. The Python line `entry.source_file = target_file`
mutates the looked-up object in place; that object is the first record with
the key in the cache, and the assignment is observable through the cache
whenever the save did not evict the object from it (always in dry-run mode,
and outside dry-run exactly when the object lives in a bucket other than
`entry.source_file`). -/
def move_entry (st : RepoState) (key target : String) :
    Except String (Option BibEntry) × RepoState :=
  let p := get_entry st key
  match p.1 with
  | none => (.ok none, p.2)
  | some e =>
    if e.source_file == target then (.ok (some e), p.2)
    else
      let objBucket := (p.2.cache.find? (fun b => b.2.any (fun x => x.key == key))).map Prod.fst
      let sourceEntries := (alGet p.2.cache e.source_file).getD []
      let updatedSource := sourceEntries.filter (fun x => !(x.key == key))
      let st2 := save_entries p.2 updatedSource e.source_file
      let e2 := { e with source_file := target }
      let st3 :=
        if st2.dryRun || !(objBucket == some e.source_file) then
          { st2 with cache := mutateFirstWithKey st2.cache key e2 }
        else st2
      let pa := add_entry st3 e2 (some target)
      match pa.1 with
      | .error msg => (.error msg, pa.2)
      | .ok _ => (.ok (some e2), pa.2)

/-- One repository mutation, as used in the operation-sequence claims. -/
inductive RepoOp where
  | add (e : BibEntry) (target : Option String)
  | remove (k : String)
  | update (k : String) (changes : List (String × Option String))
  | move (k : String) (target : String)

/-- Apply one mutation, keeping only the state (return values and raised
duplicate-key errors do not interrupt a sequence). -/
def applyOp (st : RepoState) : RepoOp → RepoState
  | .add e t => (add_entry st e t).2
  | .remove k => (remove_entry st k).2
  | .update k ch => (update_entry st k ch).2
  | .move k t => (move_entry st k t).2

/-- Apply a sequence of mutations. -/
def applyOps (st : RepoState) (ops : List RepoOp) : RepoState :=
  ops.foldl applyOp st

/-- `IndexBuilder.build_index` as called on a repository: the entries come
from `Repository.get_all_entries()` (= `load_entries()`). -/
def build_index_from_repo (st : RepoState) (db : DbState) : DbState :=
  build_index (load_entries st false).1 true db

/-! ## Concrete records, states and oracles used in witnesses and
counterexamples -/

/-- A sample record. -/
def entA : BibEntry := ⟨"k", "article", [("title", some "T")], "r/bibtex/by-type/article.bib"⟩

/-- Its on-disk form. -/
def dskA : DiskEntry := ⟨"k", "article", [("title", "T")]⟩

/-- A repository with one record whose cache has been fully loaded. -/
def stWarm : RepoState :=
  ⟨"r", [("r/bibtex/by-type/article.bib", [dskA])],
       [("r/bibtex/by-type/article.bib", [entA])], false, none⟩

/-- The same repository with a cold (empty) cache. -/
def stCold : RepoState :=
  ⟨"r", [("r/bibtex/by-type/article.bib", [dskA])], [], false, none⟩

/-- The loaded repository with dry-run mode enabled. -/
def stC3 : RepoState := enable_dry_run stWarm

/-- A fresh repository over a store containing key "k" in file `a.bib`. -/
def stC4 : RepoState := ⟨"r", [("r/bibtex/a.bib", [dskA])], [], false, none⟩

/-- A record that reuses the key "k" with different contents. -/
def entDup : BibEntry := ⟨"k", "book", [("title", some "T2")], "x"⟩

/-- A repository whose two files both contain the key "k". -/
def rsDupKeys : RepoState :=
  ⟨"r", [("r/bibtex/a.bib", [dskA]),
         ("r/bibtex/b.bib", [⟨"k", "article", [("title", "B")]⟩])], [], false, none⟩

/-- An empty database. -/
def dbEmpty : DbState := ⟨[], [], 1⟩

/-- A database holding one record. -/
def dbC5 : DbState := insert_entry dbEmpty ⟨"k", "article", [("title", some "A")], "f"⟩

/-- A database holding two records, "k2" inserted last. -/
def dbC5b : DbState := insert_entry dbC5 ⟨"k2", "article", [("title", some "B")], "f"⟩

/-- A backend oracle that matches nothing. -/
def oracleNone : String → Except Unit (List (String × ℚ)) := fun _ => .ok []

/-- A backend oracle that rejects every query as a syntax error. -/
def oracleErr : String → Except Unit (List (String × ℚ)) := fun _ => .error ()

/-- Strictly ascending rowids (a property of every reachable database state,
used as the hypothesis under which `ORDER BY id DESC` is reversal). -/
def idsStrictAsc : List EntryRow → Bool
  | [] => true
  | [_] => true
  | a :: b :: t => decide (a.id < b.id) && idsStrictAsc (b :: t)

/-! ## Store-wide key uniqueness: the repository invariant -/

/-- Flatten the record lists of a cache. -/
def flatB (c : List (String × List BibEntry)) : List BibEntry :=
  (c.map Prod.snd).flatten

/-- The flattened cache of a repository state. -/
def cacheFlat (st : RepoState) : List BibEntry := flatB st.cache

/-- The keys of the flattened cache. -/
def flatKeys (st : RepoState) : List String := (cacheFlat st).map BibEntry.key

/-- Keys stored on disk for a file. -/
def diskKeysAt (st : RepoState) (f : String) : List String :=
  ((alGet st.disk f).getD []).map DiskEntry.key

/-- Keys cached for a file. -/
def cacheKeysAt (st : RepoState) (f : String) : List String :=
  ((alGet st.cache f).getD []).map BibEntry.key

/-- The repository invariant: dry-run off, well-formed file maps, cached
records filed under their own source file, per-file key agreement between
disk and cache, and globally duplicate-free keys. -/
def Inv (st : RepoState) : Prop :=
  st.dryRun = false ∧
  (st.disk.map Prod.fst).Nodup ∧
  (st.cache.map Prod.fst).Nodup ∧
  (∀ p ∈ st.cache, ∀ e ∈ p.2, e.source_file = p.1) ∧
  (∀ f ∈ st.disk.map Prod.fst ++ st.cache.map Prod.fst,
    diskKeysAt st f = cacheKeysAt st f) ∧
  (flatKeys st).Nodup

instance (st : RepoState) : Decidable (Inv st) := by
  unfold Inv
  infer_instance


/-! ## Token decomposition of field-path queries

A whitespace-free token of a field-path query, as scanned by the
`(\w+):([^\s]+|\".+?\")` rewrite of `_build_field_query`, is one of:
inert text in which no word character is immediately followed by a colon, a
`field:value` occurrence preceded by inert text, or a `field:` spec with no
value at the end of the token.  These shapes state the per-occurrence
translation claim; `tok_total` below proves the decomposition total. -/

inductive FieldTok where
  | plain (t : List Char)
  | qual (pre fl vl : List Char)
  | dang (pre fl : List Char)
deriving DecidableEq, Repr

def tokRender : FieldTok → List Char
  | .plain t => t
  | .qual pre fl vl => pre ++ fl ++ ':' :: vl
  | .dang pre fl => pre ++ fl ++ [':']

def tokOut : FieldTok → List Char
  | .plain t => t
  | .qual pre fl vl =>
      pre ++ (if ftsColumnsL.contains (fl.map Char.toLower) then
        lbrace :: fl.map Char.toLower ++ rbrace :: ':' :: vl else vl)
  | .dang pre fl => pre ++ fl ++ [':']

def tokWarn : FieldTok → List String
  | .qual _ fl _ =>
      if ftsColumnsL.contains (fl.map Char.toLower) then []
      else [unknownFieldMsg (String.mk (fl.map Char.toLower))]
  | _ => []

def preWF (pre : List Char) : Bool :=
  pre.all (fun c => !pyIsSpace c) && !hasFieldSpecL pre &&
    (match pre.getLast? with
     | some c => !isWordChar c
     | none => true)

def tokWF : FieldTok → Bool
  | .plain t => !t.isEmpty && t.all (fun c => !pyIsSpace c) && !hasFieldSpecL t
  | .qual pre fl vl =>
      preWF pre && !fl.isEmpty && fl.all isWordChar &&
        !vl.isEmpty && vl.all (fun c => !pyIsSpace c)
  | .dang pre fl => preWF pre && !fl.isEmpty && fl.all isWordChar

def isQualTok : FieldTok → Bool
  | .qual _ _ _ => true
  | .dang _ _ => true
  | .plain _ => false

def renderToks : List FieldTok → List Char
  | [] => []
  | [t] => tokRender t
  | t :: t2 :: ts => tokRender t ++ ' ' :: renderToks (t2 :: ts)

def outToks : List FieldTok → List Char
  | [] => []
  | [t] => tokOut t
  | t :: t2 :: ts => tokOut t ++ ' ' :: outToks (t2 :: ts)

def warnToks (ts : List FieldTok) : List String := (ts.map tokWarn).flatten

/-! ## Lemmas for the query translator claims -/

theorem word_not_space {c : Char} (h : isWordChar c = true) : pyIsSpace c = false := by
  cases hsp : pyIsSpace c
  · rfl
  · exfalso
    simp only [pyIsSpace, Bool.or_eq_true, beq_iff_eq] at hsp
    rcases hsp with ((((h1 | h1) | h1) | h1) | h1) | h1 <;> subst h1 <;>
      exact absurd h (by decide)

theorem contains_iff_mem {α : Type _} [BEq α] [LawfulBEq α] {c : α} {l : List α} :
    l.contains c = true ↔ c ∈ l :=
  List.elem_iff

theorem takeWhile_all {p : Char → Bool} {l : List Char}
    (h : ∀ c ∈ l, p c = true) : l.takeWhile p = l := by
  induction l with
  | nil => rfl
  | cons x xs ih =>
    have hx : p x = true := h x (List.mem_cons_self x xs)
    simp only [List.takeWhile_cons, hx, if_true]
    rw [ih (fun c hc => h c (List.mem_cons_of_mem x hc))]

theorem dropWhile_all {p : Char → Bool} {l : List Char}
    (h : ∀ c ∈ l, p c = true) : l.dropWhile p = [] := by
  induction l with
  | nil => rfl
  | cons x xs ih =>
    have hx : p x = true := h x (List.mem_cons_self x xs)
    simp only [List.dropWhile_cons, hx, if_true]
    exact ih (fun c hc => h c (List.mem_cons_of_mem x hc))

theorem takeWhile_append_sentinel {p : Char → Bool} {xs ys : List Char} {y : Char}
    (hxs : ∀ c ∈ xs, p c = true) (hy : p y = false) :
    (xs ++ y :: ys).takeWhile p = xs := by
  induction xs with
  | nil => simp [List.takeWhile_cons, hy]
  | cons x t ih =>
    have hx : p x = true := hxs x (List.mem_cons_self x t)
    simp only [List.cons_append, List.takeWhile_cons, hx, if_true]
    rw [ih (fun c hc => hxs c (List.mem_cons_of_mem x hc))]

theorem dropWhile_append_sentinel {p : Char → Bool} {xs ys : List Char} {y : Char}
    (hxs : ∀ c ∈ xs, p c = true) (hy : p y = false) :
    (xs ++ y :: ys).dropWhile p = y :: ys := by
  induction xs with
  | nil => simp [List.dropWhile_cons, hy]
  | cons x t ih =>
    have hx : p x = true := hxs x (List.mem_cons_self x t)
    simp only [List.cons_append, List.dropWhile_cons, hx, if_true]
    exact ih (fun c hc => hxs c (List.mem_cons_of_mem x hc))

theorem pyStripL_ne_nil {l : List Char} {c : Char} (hc : c ∈ l)
    (hns : pyIsSpace c = false) : pyStripL l ≠ [] := by
  intro hnil
  unfold pyStripL at hnil
  have h1 : (l.dropWhile pyIsSpace).reverse.dropWhile pyIsSpace = [] := by
    have h0 := congrArg List.reverse hnil
    simpa using h0
  have h3 : ∀ x ∈ l.dropWhile pyIsSpace, pyIsSpace x = true := by
    intro x hx
    exact List.dropWhile_eq_nil_iff.mp h1 x (List.mem_reverse.mpr hx)
  have h4 : ∀ x ∈ l.takeWhile pyIsSpace, pyIsSpace x = true :=
    fun x hx => List.mem_takeWhile_imp hx
  have h5 : pyIsSpace c = true := by
    rcases List.mem_append.mp
      ((List.takeWhile_append_dropWhile (p := pyIsSpace) (l := l)) ▸ hc) with h | h
    · exact h4 c h
    · exact h3 c h
  rw [h5] at hns
  exact absurd hns (by simp)

theorem hasFieldSpecL_append {fl rest : List Char} (hne : fl ≠ [])
    (hw : ∀ c ∈ fl, isWordChar c = true) :
    hasFieldSpecL (fl ++ ':' :: rest) = true := by
  induction fl with
  | nil => exact absurd rfl hne
  | cons a t ih =>
    cases t with
    | nil =>
      have ha : isWordChar a = true := hw a (by simp)
      simp [hasFieldSpecL, ha]
    | cons b u =>
      have hb : hasFieldSpecL ((b :: u) ++ ':' :: rest) = true :=
        ih (by simp) (fun c hc => hw c (List.mem_cons_of_mem a hc))
      rw [List.cons_append]
      rw [List.cons_append] at hb
      simp only [hasFieldSpecL, Bool.or_eq_true]
      exact Or.inr hb

theorem bfqGo_nil (fuel : Nat) : buildFieldQueryGo fuel [] = ([], []) := by
  cases fuel <;> rfl

theorem buildFieldQueryGo_single {fl vl : List Char} (fuel : Nat) (hfne : fl ≠ [])
    (hw : ∀ c ∈ fl, isWordChar c = true) (hvne : vl ≠ [])
    (hv : ∀ c ∈ vl, pyIsSpace c = false) :
    buildFieldQueryGo (fuel + 1) (fl ++ ':' :: vl) =
      (if ftsColumnsL.contains (fl.map Char.toLower) then
        (lbrace :: fl.map Char.toLower ++ rbrace :: ':' :: vl, [])
      else (vl, [unknownFieldMsg (String.mk (fl.map Char.toLower))])) := by
  cases fl with
  | nil => exact absurd rfl hfne
  | cons c fs =>
    have hc : isWordChar c = true := hw c (by simp)
    have hdw : ((c :: fs) ++ ':' :: vl).dropWhile isWordChar = ':' :: vl :=
      dropWhile_append_sentinel hw (by decide)
    have htw : ((c :: fs) ++ ':' :: vl).takeWhile isWordChar = c :: fs :=
      takeWhile_append_sentinel hw (by decide)
    have htv : vl.takeWhile (fun ch => !pyIsSpace ch) = vl :=
      takeWhile_all (fun x hx => by simp [hv x hx])
    have hdv : vl.dropWhile (fun ch => !pyIsSpace ch) = [] :=
      dropWhile_all (fun x hx => by simp [hv x hx])
    cases vl with
    | nil => exact absurd rfl hvne
    | cons v0 vrest =>
      rw [List.cons_append]
      rw [List.cons_append] at hdw htw
      rw [buildFieldQueryGo]
      simp only [hc, if_true]
      split
      · rename_i r2 heq
        rw [hdw] at heq
        cases heq
        split
        · rename_i heq2
          rw [htv] at heq2
          cases heq2
        · rename_i w0 wrest heq2
          rw [htv] at heq2
          cases heq2
          rw [htw, hdv, bfqGo_nil]
          by_cases hcol : ftsColumnsL.contains (List.map Char.toLower (c :: fs)) = true
          · simp [hcol]
          · simp [hcol]
      · rename_i hnone
        exact absurd hdw (hnone _)

theorem toList_mk (l : List Char) : (String.mk l).toList = l := rfl

/-- C8 general-part statement for reuse during development. -/

theorem foldl_warn_eq_filterMap (l : List (List Char)) (acc : List String) :
    l.foldl
      (fun acc part =>
        if part.contains '*' && !(endsStar part) then
          acc ++ [wildMsg (String.mk part)]
        else acc) acc = acc ++ l.filterMap wildWarnOpt := by
  induction l generalizing acc with
  | nil => simp
  | cons p ps ih =>
    simp only [List.foldl_cons, List.filterMap_cons]
    cases hw : wildWarnOpt p with
    | none =>
      have hcond : ¬(p.contains '*' && !(endsStar p)) = true := by
        intro hc
        unfold wildWarnOpt at hw
        rw [if_pos hc] at hw
        cases hw
      rw [if_neg hcond, ih]
    | some m =>
      have hcond : (p.contains '*' && !(endsStar p)) = true := by
        by_contra hc
        unfold wildWarnOpt at hw
        rw [if_neg hc] at hw
        cases hw
      have hm : m = wildMsg (String.mk p) := by
        unfold wildWarnOpt at hw
        rw [if_pos hcond] at hw
        cases hw
        rfl
      rw [if_pos hcond, ih, hm]
      simp

theorem pySplitGo_nil (fuel : Nat) : pySplitGo fuel [] = [] := by
  cases fuel <;> rfl

theorem split_no_inner_star :
    ∀ (fuel : Nat) (l : List Char), '*' ∉ l.dropLast →
      ∀ p ∈ pySplitGo fuel l, '*' ∈ p → p.getLast? = some '*' := by
  intro fuel
  induction fuel with
  | zero => intro l hds p hp; simp [pySplitGo] at hp
  | succ fuel ih =>
    intro l hds p hp hstar
    cases l with
    | nil => simp [pySplitGo] at hp
    | cons c cs =>
      by_cases hcnil : cs = []
      · subst hcnil
        by_cases hsp : pyIsSpace c = true
        · rw [pySplitGo, if_pos hsp, pySplitGo_nil] at hp
          simp at hp
        · rw [pySplitGo, if_neg hsp] at hp
          simp only [List.takeWhile_nil, List.dropWhile_nil, pySplitGo_nil] at hp
          rcases List.mem_cons.mp hp with hp1 | hp1
          · subst hp1
            rcases List.mem_cons.mp hstar with h | h
            · subst h; rfl
            · simp at h
          · simp at hp1
      · have hdl : (c :: cs).dropLast = c :: cs.dropLast :=
          List.dropLast_cons_of_ne_nil hcnil
        rw [hdl] at hds
        have hcne : c ≠ '*' := fun hceq => hds (hceq ▸ List.mem_cons_self _ _)
        have hds2 : '*' ∉ cs.dropLast := fun hin => hds (List.mem_cons_of_mem c hin)
        by_cases hsp : pyIsSpace c = true
        · rw [pySplitGo, if_pos hsp] at hp
          exact ih cs hds2 p hp hstar
        · rw [pySplitGo, if_neg hsp] at hp
          have hsplit := List.takeWhile_append_dropWhile
            (p := fun x => !pyIsSpace x) (l := cs)
          rcases List.mem_cons.mp hp with hp1 | hp2
          · subst hp1
            have hstarw : '*' ∈ cs.takeWhile (fun x => !pyIsSpace x) := by
              rcases List.mem_cons.mp hstar with h | h
              · exact absurd h.symm hcne
              · exact h
            rcases hr : cs.dropWhile (fun x => !pyIsSpace x) with _ | ⟨y, ys⟩
            · -- the word is all of cs; the star must be the last character
              have hw_eq : cs.takeWhile (fun x => !pyIsSpace x) = cs := by
                have h0 := hsplit
                rw [hr, List.append_nil] at h0
                exact h0
              rw [hw_eq] at hstarw ⊢
              have hdec := List.dropLast_append_getLast hcnil
              rcases List.mem_append.mp (hdec ▸ hstarw) with h | h
              · exact absurd h hds2
              · have hlast : cs.getLast hcnil = '*' :=
                  (List.mem_singleton.mp h).symm
                have hconc : c :: cs = (c :: cs.dropLast) ++ ['*'] := by
                  rw [← hlast]
                  rw [show (c :: cs.dropLast) ++ [cs.getLast hcnil] =
                    c :: (cs.dropLast ++ [cs.getLast hcnil]) from rfl]
                  rw [hdec]
                rw [hconc, List.getLast?_concat]
            · -- more input follows the word: an inner star would sit in dropLast
              exfalso
              apply hds2
              have h0 : cs = cs.takeWhile (fun x => !pyIsSpace x) ++ y :: ys := by
                rw [← hr]; exact hsplit.symm
              rw [h0, List.dropLast_append_of_ne_nil _ (by simp)]
              exact List.mem_append_left _ hstarw
          · -- p comes from splitting the input after the word
            apply ih _ _ p hp2 hstar
            intro hin
            apply hds2
            rcases hr : cs.dropWhile (fun x => !pyIsSpace x) with _ | ⟨y, ys⟩
            · rw [hr] at hin; simp at hin
            · have h0 : cs = cs.takeWhile (fun x => !pyIsSpace x) ++ y :: ys := by
                rw [← hr]; exact hsplit.symm
              rw [h0, List.dropLast_append_of_ne_nil _ (by simp)]
              rw [hr] at hin
              exact List.mem_append_right _ hin

theorem wildWarnings_nil {q : List Char} (hq : '*' ∉ q.dropLast) :
    (pySplitL q).filterMap wildWarnOpt = [] := by
  rw [List.filterMap_eq_nil_iff]
  intro p hp
  unfold wildWarnOpt
  by_cases h1 : p.contains '*' = true
  · have h2 := split_no_inner_star (q.length + 1) q hq p hp (contains_iff_mem.mp h1)
    have h3 : endsStar p = true := by
      unfold endsStar
      rw [h2]
      rfl
    rw [if_neg (by rw [h3]; simp)]
  · rw [if_neg (by rw [Bool.not_eq_true] at h1; rw [h1]; simp)]

theorem dropWhile_head_false {p : Char → Bool} :
    ∀ (l : List Char) {d : Char} {r : List Char},
      l.dropWhile p = d :: r → p d = false := by
  intro l
  induction l with
  | nil => intro d r h; cases h
  | cons x xs ih =>
    intro d r h
    cases hx : p x with
    | true =>
      rw [List.dropWhile_cons, if_pos hx] at h
      exact ih h
    | false =>
      rw [List.dropWhile_cons, if_neg (by rw [hx]; simp)] at h
      injection h with h1 h2
      subst h1
      exact hx

theorem getLast?_cons_ne {c : Char} {t : List Char} (h : t ≠ []) :
    (c :: t).getLast? = t.getLast? := by
  cases t with
  | nil => exact absurd rfl h
  | cons b u => exact List.getLast?_cons_cons

theorem getLast?_append_ne {w u : List Char} (h : u ≠ []) :
    (w ++ u).getLast? = u.getLast? := by
  induction w with
  | nil => rfl
  | cons c w2 ih =>
    rw [List.cons_append, getLast?_cons_ne, ih]
    intro hnil
    rcases List.append_eq_nil.mp hnil with ⟨h1, h2⟩
    exact h h2

theorem bfqGo_fuel_le :
    ∀ (n : Nat) (l : List Char), l.length ≤ n →
      ∀ f1 f2 : Nat, l.length < f1 → l.length < f2 →
        buildFieldQueryGo f1 l = buildFieldQueryGo f2 l := by
  intro n
  induction n with
  | zero =>
    intro l hl f1 f2 h1 h2
    have : l = [] := List.length_eq_zero.mp (Nat.le_zero.mp hl)
    subst this
    rw [bfqGo_nil, bfqGo_nil]
  | succ n ih =>
    intro l hl f1 f2 h1 h2
    cases l with
    | nil => rw [bfqGo_nil, bfqGo_nil]
    | cons c cs =>
      cases f1 with
      | zero => omega
      | succ g1 =>
        cases f2 with
        | zero => omega
        | succ g2 =>
          have hlen : (c :: cs).length = cs.length + 1 := rfl
          rw [buildFieldQueryGo, buildFieldQueryGo]
          by_cases hwc : isWordChar c = true
          · simp only [hwc, if_true]
            have hdsub : ((c :: cs).dropWhile isWordChar).length ≤ cs.length := by
              rw [List.dropWhile_cons, if_pos hwc]
              exact List.Sublist.length_le (List.dropWhile_sublist _)
            split
            · rename_i r2 heq
              have hr2 : r2.length + 1 ≤ cs.length := by
                have := hdsub
                rw [heq] at this
                simpa using this
              split
              · rename_i heq2
                have hrec := ih r2 (by omega) g1 g2 (by omega) (by omega)
                rw [hrec]
              · rename_i v0 vrest heq2
                have hdsub2 :
                    (r2.dropWhile (fun ch => !pyIsSpace ch)).length ≤ r2.length :=
                  List.Sublist.length_le (List.dropWhile_sublist _)
                have hrec := ih (r2.dropWhile (fun ch => !pyIsSpace ch))
                  (by omega) g1 g2 (by omega) (by omega)
                rw [hrec]
            · rename_i hne
              have hrec := ih ((c :: cs).dropWhile isWordChar)
                (by omega) g1 g2 (by omega) (by omega)
              rw [hrec]
          · rw [if_neg hwc, if_neg hwc]
            have hrec := ih cs (by omega) g1 g2 (by omega) (by omega)
            rw [hrec]

theorem bfqGo_eq_bfq {l : List Char} {f : Nat} (h : l.length < f) :
    buildFieldQueryGo f l = buildFieldQueryL l :=
  bfqGo_fuel_le l.length l le_rfl f (l.length + 1) h (by omega)

theorem bfq_nil_eq : buildFieldQueryL [] = ([], []) := rfl

theorem bfq_cons_nonword {c : Char} (cs : List Char) (hc : isWordChar c = false) :
    buildFieldQueryL (c :: cs) =
      (c :: (buildFieldQueryL cs).1, (buildFieldQueryL cs).2) := by
  unfold buildFieldQueryL
  rw [show (c :: cs).length + 1 = cs.length + 1 + 1 from by simp]
  rw [buildFieldQueryGo]
  rw [if_neg (by rw [hc]; simp)]

theorem bfq_run {w : List Char} (rest : List Char) (hwne : w ≠ [])
    (hw : ∀ c ∈ w, isWordChar c = true)
    (hrest : rest = [] ∨ ∃ d r, rest = d :: r ∧ isWordChar d = false ∧ d ≠ ':') :
    buildFieldQueryL (w ++ rest) =
      (w ++ (buildFieldQueryL rest).1, (buildFieldQueryL rest).2) := by
  cases w with
  | nil => exact absurd rfl hwne
  | cons c ws =>
    have hc : isWordChar c = true := hw c (by simp)
    unfold buildFieldQueryL
    rw [show ((c :: ws) ++ rest).length + 1 = (ws ++ rest).length + 1 + 1 from by simp]
    rw [List.cons_append, buildFieldQueryGo]
    simp only [hc, if_true]
    rcases hrest with hrest | ⟨d, r, hrest, hdw, hdc⟩
    · subst hrest
      have hdw0 : (c :: (ws ++ [])).dropWhile isWordChar = [] := by
        rw [show c :: (ws ++ []) = (c :: ws) ++ [] from rfl]
        simp only [List.append_nil]
        exact dropWhile_all hw
      have htw0 : (c :: (ws ++ [])).takeWhile isWordChar = c :: ws := by
        rw [show c :: (ws ++ []) = (c :: ws) ++ [] from rfl]
        simp only [List.append_nil]
        exact takeWhile_all hw
      split
      · rename_i r2 heq
        rw [hdw0] at heq
        cases heq
      · rename_i hne
        rw [hdw0, htw0, bfqGo_nil]
        simp [bfqGo_nil, bfq_nil_eq]
    · subst hrest
      have hdw1 : (c :: (ws ++ d :: r)).dropWhile isWordChar = d :: r := by
        rw [show c :: (ws ++ d :: r) = (c :: ws) ++ d :: r from rfl]
        exact dropWhile_append_sentinel hw hdw
      have htw1 : (c :: (ws ++ d :: r)).takeWhile isWordChar = c :: ws := by
        rw [show c :: (ws ++ d :: r) = (c :: ws) ++ d :: r from rfl]
        exact takeWhile_append_sentinel hw hdw
      split
      · rename_i r2 heq
        rw [hdw1] at heq
        injection heq with h1 h2
        exact absurd h1 hdc
      · rename_i hne
        rw [hdw1, htw1]
        rw [bfqGo_eq_bfq (by simp only [List.length_cons, List.length_append]; omega)]
        rfl

theorem bfq_dangle {w : List Char} (rest : List Char) (hwne : w ≠ [])
    (hw : ∀ c ∈ w, isWordChar c = true)
    (hrest : rest = [] ∨ ∃ r, rest = ' ' :: r) :
    buildFieldQueryL (w ++ ':' :: rest) =
      (w ++ ':' :: (buildFieldQueryL rest).1, (buildFieldQueryL rest).2) := by
  cases w with
  | nil => exact absurd rfl hwne
  | cons c ws =>
    have hc : isWordChar c = true := hw c (by simp)
    unfold buildFieldQueryL
    rw [show ((c :: ws) ++ ':' :: rest).length + 1 =
      (ws ++ ':' :: rest).length + 1 + 1 from by simp]
    rw [List.cons_append, buildFieldQueryGo]
    simp only [hc, if_true]
    have hdw1 : (c :: (ws ++ ':' :: rest)).dropWhile isWordChar = ':' :: rest := by
      rw [show c :: (ws ++ ':' :: rest) = (c :: ws) ++ ':' :: rest from rfl]
      exact dropWhile_append_sentinel hw (by decide)
    have htw1 : (c :: (ws ++ ':' :: rest)).takeWhile isWordChar = c :: ws := by
      rw [show c :: (ws ++ ':' :: rest) = (c :: ws) ++ ':' :: rest from rfl]
      exact takeWhile_append_sentinel hw (by decide)
    have htk : rest.takeWhile (fun ch => !pyIsSpace ch) = [] := by
      rcases hrest with h | ⟨r, h⟩
      · subst h; rfl
      · subst h
        rw [List.takeWhile_cons]
        simp [pyIsSpace]
    split
    · rename_i r2 heq
      rw [hdw1] at heq
      injection heq with h1 h2
      subst h2
      split
      · rename_i heq2
        rw [htw1]
        rw [bfqGo_eq_bfq (by simp only [List.length_cons, List.length_append]; omega)]
        rfl
      · rename_i v0 vrest heq2
        rw [htk] at heq2
        cases heq2
    · rename_i hne
      exact absurd hdw1 (hne _)

theorem bfq_qual {w vl : List Char} (rest : List Char) (hwne : w ≠ [])
    (hw : ∀ c ∈ w, isWordChar c = true) (hvne : vl ≠ [])
    (hv : ∀ c ∈ vl, pyIsSpace c = false)
    (hrest : rest = [] ∨ ∃ r, rest = ' ' :: r) :
    buildFieldQueryL (w ++ ':' :: (vl ++ rest)) =
      (if ftsColumnsL.contains (w.map Char.toLower) then
        (lbrace :: w.map Char.toLower ++ rbrace :: ':' :: (vl ++ (buildFieldQueryL rest).1),
         (buildFieldQueryL rest).2)
      else (vl ++ (buildFieldQueryL rest).1,
            unknownFieldMsg (String.mk (w.map Char.toLower)) :: (buildFieldQueryL rest).2)) := by
  cases w with
  | nil => exact absurd rfl hwne
  | cons c ws =>
    have hc : isWordChar c = true := hw c (by simp)
    unfold buildFieldQueryL
    rw [show ((c :: ws) ++ ':' :: (vl ++ rest)).length + 1 =
      (ws ++ ':' :: (vl ++ rest)).length + 1 + 1 from by simp]
    rw [List.cons_append, buildFieldQueryGo]
    simp only [hc, if_true]
    have hdw1 : (c :: (ws ++ ':' :: (vl ++ rest))).dropWhile isWordChar =
        ':' :: (vl ++ rest) := by
      rw [show c :: (ws ++ ':' :: (vl ++ rest)) =
        (c :: ws) ++ ':' :: (vl ++ rest) from rfl]
      exact dropWhile_append_sentinel hw (by decide)
    have htw1 : (c :: (ws ++ ':' :: (vl ++ rest))).takeWhile isWordChar = c :: ws := by
      rw [show c :: (ws ++ ':' :: (vl ++ rest)) =
        (c :: ws) ++ ':' :: (vl ++ rest) from rfl]
      exact takeWhile_append_sentinel hw (by decide)
    have hvv : ∀ c2 ∈ vl, (fun ch => !pyIsSpace ch) c2 = true := by
      intro c2 hc2
      simp [hv c2 hc2]
    have htk : (vl ++ rest).takeWhile (fun ch => !pyIsSpace ch) = vl := by
      rcases hrest with h | ⟨r, h⟩
      · subst h; simp only [List.append_nil]; exact takeWhile_all hvv
      · subst h
        exact takeWhile_append_sentinel hvv (by simp [pyIsSpace])
    have hdk : (vl ++ rest).dropWhile (fun ch => !pyIsSpace ch) = rest := by
      rcases hrest with h | ⟨r, h⟩
      · subst h; simp only [List.append_nil]; exact dropWhile_all hvv
      · subst h
        exact dropWhile_append_sentinel hvv (by simp [pyIsSpace])
    split
    · rename_i r2 heq
      rw [hdw1] at heq
      injection heq with h1 h2
      subst h2
      split
      · rename_i heq2
        rw [htk] at heq2
        exact absurd heq2 hvne
      · rename_i v0 vrest heq2
        rw [htk] at heq2
        rw [htw1, hdk]
        rw [bfqGo_eq_bfq (by simp only [List.length_cons, List.length_append]; omega)]
        subst heq2
        by_cases hcol : ftsColumnsL.contains ((c :: ws).map Char.toLower) = true
        · simp only [List.map_cons] at hcol ⊢
          rw [if_pos hcol, if_pos hcol]
          unfold buildFieldQueryL
          simp [List.cons_append, List.append_assoc]
        · simp only [List.map_cons] at hcol ⊢
          rw [if_neg hcol, if_neg hcol]
          unfold buildFieldQueryL
          simp [List.cons_append, List.append_assoc]
    · rename_i hne
      exact absurd hdw1 (hne _)

theorem mem_of_getLast?_eq {α : Type _} {l : List α} {x : α}
    (h : l.getLast? = some x) : x ∈ l := by
  induction l with
  | nil => cases h
  | cons a t ihm =>
    cases t with
    | nil =>
      simp only [List.getLast?_singleton, Option.some.injEq] at h
      subst h
      simp
    | cons b u =>
      rw [List.getLast?_cons_cons] at h
      exact List.mem_cons_of_mem a (ihm h)

theorem hasFieldSpecL_tail {a : Char} {t : List Char}
    (h : hasFieldSpecL (a :: t) = false) : hasFieldSpecL t = false := by
  cases t with
  | nil => rfl
  | cons b u =>
    have h2 : ((isWordChar a && (b == ':')) || hasFieldSpecL (b :: u)) = false := h
    exact (Bool.or_eq_false_iff.mp h2).2

theorem hasFieldSpecL_suffix :
    ∀ (t u : List Char), (∃ a, a ++ u = t) → hasFieldSpecL t = false →
      hasFieldSpecL u = false := by
  intro t
  induction t with
  | nil =>
    intro u ha h
    obtain ⟨a, ha⟩ := ha
    rcases List.append_eq_nil.mp ha with ⟨h1, h2⟩
    subst h2
    rfl
  | cons c t2 ih =>
    intro u ha h
    obtain ⟨a, ha⟩ := ha
    cases a with
    | nil =>
      simp only [List.nil_append] at ha
      subst ha
      exact h
    | cons x a2 =>
      injection ha with h1 h2
      exact ih u ⟨a2, h2⟩ (hasFieldSpecL_tail h)

theorem hasFieldSpecL_ne_nil {t : List Char} (h : hasFieldSpecL t = true) :
    ∃ b rest, t = b :: rest := by
  cases t with
  | nil => cases h
  | cons b rest => exact ⟨b, rest, rfl⟩

theorem hasFieldSpecL_append_left {t : List Char} (a : List Char)
    (h : hasFieldSpecL t = true) : hasFieldSpecL (a ++ t) = true := by
  induction a with
  | nil => simpa
  | cons x a2 ih =>
    have hbr : ∃ b rest, a2 ++ t = b :: rest := by
      cases ha2 : a2 ++ t with
      | nil =>
        rcases List.append_eq_nil.mp ha2 with ⟨h1, h2⟩
        subst h2
        cases h
      | cons b rest => exact ⟨b, rest, rfl⟩
    obtain ⟨b, rest, hbr⟩ := hbr
    rw [List.cons_append, hbr]
    show ((isWordChar x && (b == ':')) || hasFieldSpecL (b :: rest)) = true
    rw [← hbr, ih]
    simp

theorem bfq_inert :
    ∀ (n : Nat) (t : List Char), t.length ≤ n → ∀ (rest : List Char),
      hasFieldSpecL t = false →
      ((∀ c, t.getLast? = some c → isWordChar c = false) ∨
        rest = [] ∨ ∃ r, rest = ' ' :: r) →
      buildFieldQueryL (t ++ rest) =
        (t ++ (buildFieldQueryL rest).1, (buildFieldQueryL rest).2) := by
  intro n
  induction n with
  | zero =>
    intro t ht rest hs hb
    have : t = [] := List.length_eq_zero.mp (Nat.le_zero.mp ht)
    subst this
    simp
  | succ n ih =>
    intro t ht rest hs hb
    cases t with
    | nil => simp
    | cons c t2 =>
      by_cases hwc : isWordChar c = true
      · -- a word run begins; it ends inside t or at its end
        have hu : c :: t2 = (c :: t2).takeWhile isWordChar ++
            (c :: t2).dropWhile isWordChar :=
          (List.takeWhile_append_dropWhile isWordChar (c :: t2)).symm
        have htwc : (c :: t2).takeWhile isWordChar =
            c :: t2.takeWhile isWordChar := by
          rw [List.takeWhile_cons, if_pos hwc]
        have hwrun : ∀ x ∈ (c :: t2).takeWhile isWordChar, isWordChar x = true :=
          fun x hx => List.mem_takeWhile_imp hx
        have hwne : (c :: t2).takeWhile isWordChar ≠ [] := by
          rw [htwc]; simp
        cases hdrop : (c :: t2).dropWhile isWordChar with
        | nil =>
          -- the whole token is one word run
          have hteq : (c :: t2).takeWhile isWordChar = c :: t2 := by
            rw [hdrop] at hu
            simpa using hu.symm
          have hall : ∀ x ∈ c :: t2, isWordChar x = true := by
            rw [← hteq]
            exact hwrun
          have hb2 : rest = [] ∨ ∃ d r, rest = d :: r ∧ isWordChar d = false ∧
              d ≠ ':' := by
            rcases hb with hb | hb | ⟨r, hb⟩
            · exfalso
              have hlast : ∃ x, (c :: t2).getLast? = some x := by
                cases h2 : (c :: t2).getLast? with
                | none => rw [List.getLast?_eq_none_iff] at h2; cases h2
                | some x => exact ⟨x, rfl⟩
              obtain ⟨x, hx⟩ := hlast
              have hxm : x ∈ c :: t2 := mem_of_getLast?_eq hx
              have := hb x hx
              rw [hall x hxm] at this
              cases this
            · exact Or.inl hb
            · exact Or.inr ⟨' ', r, hb, by decide, by decide⟩
          exact bfq_run rest (by simp) hall hb2
        | cons d u2 =>
          have hdn : isWordChar d = false := dropWhile_head_false _ hdrop
          have hdc : d ≠ ':' := by
            intro hdcol
            subst hdcol
            have : hasFieldSpecL (c :: t2) = true := by
              rw [hu, hdrop]
              exact hasFieldSpecL_append (by rw [htwc]; simp) hwrun
            rw [this] at hs
            cases hs
          have hsplit : c :: t2 ++ rest =
              (c :: t2).takeWhile isWordChar ++ ((d :: u2) ++ rest) := by
            conv =>
              lhs
              rw [show c :: t2 ++ rest = (c :: t2) ++ rest from rfl, hu, hdrop]
            rw [List.append_assoc]
          rw [show (c :: t2) ++ rest = c :: t2 ++ rest from rfl, hsplit]
          rw [bfq_run ((d :: u2) ++ rest) hwne hwrun
            (Or.inr ⟨d, u2 ++ rest, by simp, hdn, hdc⟩)]
          have hlen : (d :: u2).length ≤ n := by
            have h1 : ((c :: t2).dropWhile isWordChar).length ≤ t2.length := by
              rw [List.dropWhile_cons, if_pos hwc]
              exact List.Sublist.length_le (List.dropWhile_sublist _)
            rw [hdrop] at h1
            have h2 : (c :: t2).length ≤ n + 1 := ht
            simp only [List.length_cons] at h1 h2 ⊢
            omega
          have hs2 : hasFieldSpecL (d :: u2) = false := by
            refine hasFieldSpecL_suffix (c :: t2) (d :: u2) ?_ hs
            exact ⟨(c :: t2).takeWhile isWordChar, by rw [← hdrop]; exact hu.symm⟩
          have hb2 : (∀ x, (d :: u2).getLast? = some x → isWordChar x = false) ∨
              rest = [] ∨ ∃ r, rest = ' ' :: r := by
            rcases hb with hb | hb
            · left
              intro x hx
              refine hb x ?_
              rw [hu, hdrop]
              rw [getLast?_append_ne (by simp)]
              exact hx
            · exact Or.inr hb
          rw [ih (d :: u2) hlen rest hs2 hb2]
          have hcomb := hu
          rw [hdrop] at hcomb
          rw [← List.append_assoc, ← hcomb]
      · have hc2 : isWordChar c = false := by
          cases h2 : isWordChar c
          · rfl
          · exact absurd h2 hwc
        rw [List.cons_append, bfq_cons_nonword _ hc2]
        have hb2 : (∀ x, t2.getLast? = some x → isWordChar x = false) ∨
            rest = [] ∨ ∃ r, rest = ' ' :: r := by
          rcases hb with hb | hb
          · cases t2 with
            | nil => left; intro x hx; simp at hx
            | cons b u =>
              left
              intro x hx
              refine hb x ?_
              rw [getLast?_cons_ne (by simp)]
              exact hx
          · exact Or.inr hb
        rw [ih t2 (by simp only [List.length_cons] at ht; omega) rest
          (hasFieldSpecL_tail hs) hb2]
        rfl

theorem preWF_split {pre : List Char} (h : preWF pre = true) :
    (∀ c ∈ pre, pyIsSpace c = false) ∧ hasFieldSpecL pre = false ∧
      (∀ c, pre.getLast? = some c → isWordChar c = false) := by
  unfold preWF at h
  rw [Bool.and_eq_true, Bool.and_eq_true] at h
  refine ⟨?_, ?_, ?_⟩
  · intro c hc
    have := List.all_eq_true.mp h.1.1 c hc
    simpa using this
  · simpa using h.1.2
  · intro c hc
    rw [hc] at h
    simpa using h.2

theorem bfq_tok (t : FieldTok) (rest : List Char) (hWF : tokWF t = true)
    (hrest : rest = [] ∨ ∃ r, rest = ' ' :: r) :
    buildFieldQueryL (tokRender t ++ rest) =
      (tokOut t ++ (buildFieldQueryL rest).1,
       tokWarn t ++ (buildFieldQueryL rest).2) := by
  cases t with
  | plain t =>
    unfold tokWF at hWF
    rw [Bool.and_eq_true, Bool.and_eq_true] at hWF
    have hs : hasFieldSpecL t = false := by simpa using hWF.2
    show buildFieldQueryL (t ++ rest) = (t ++ _, [] ++ _)
    rw [bfq_inert t.length t le_rfl rest hs (Or.inr hrest), List.nil_append]
  | qual pre fl vl =>
    unfold tokWF at hWF
    rw [Bool.and_eq_true, Bool.and_eq_true, Bool.and_eq_true,
      Bool.and_eq_true] at hWF
    obtain ⟨⟨⟨⟨hpre, hflne⟩, hflw⟩, hvlne⟩, hvl⟩ := hWF
    obtain ⟨hpsp, hpfs, hplast⟩ := preWF_split hpre
    have hflne2 : fl ≠ [] := by simpa using hflne
    have hflw2 : ∀ c ∈ fl, isWordChar c = true := List.all_eq_true.mp hflw
    have hvlne2 : vl ≠ [] := by simpa using hvlne
    have hvl2 : ∀ c ∈ vl, pyIsSpace c = false := by
      intro c hc
      have := List.all_eq_true.mp hvl c hc
      simpa using this
    show buildFieldQueryL ((pre ++ fl ++ ':' :: vl) ++ rest) = _
    rw [show (pre ++ fl ++ ':' :: vl) ++ rest =
      pre ++ (fl ++ ':' :: (vl ++ rest)) from by
        simp [List.append_assoc]]
    rw [bfq_inert pre.length pre le_rfl (fl ++ ':' :: (vl ++ rest)) hpfs
      (Or.inl hplast)]
    rw [bfq_qual rest hflne2 hflw2 hvlne2 hvl2 hrest]
    simp only [tokOut, tokWarn]
    by_cases hcol : ftsColumnsL.contains (fl.map Char.toLower) = true
    · rw [if_pos hcol, if_pos hcol, if_pos hcol]
      simp [List.append_assoc]
    · rw [if_neg hcol, if_neg hcol, if_neg hcol]
      simp [List.append_assoc]
  | dang pre fl =>
    unfold tokWF at hWF
    rw [Bool.and_eq_true, Bool.and_eq_true] at hWF
    obtain ⟨⟨hpre, hflne⟩, hflw⟩ := hWF
    obtain ⟨hpsp, hpfs, hplast⟩ := preWF_split hpre
    have hflne2 : fl ≠ [] := by simpa using hflne
    have hflw2 : ∀ c ∈ fl, isWordChar c = true := List.all_eq_true.mp hflw
    show buildFieldQueryL ((pre ++ fl ++ [':']) ++ rest) = _
    rw [show (pre ++ fl ++ [':']) ++ rest = pre ++ (fl ++ ':' :: rest) from by
      simp [List.append_assoc]]
    rw [bfq_inert pre.length pre le_rfl (fl ++ ':' :: rest) hpfs (Or.inl hplast)]
    rw [bfq_dangle rest hflne2 hflw2 hrest]
    simp only [tokOut, tokWarn]
    simp [List.append_assoc]

theorem bfq_toks (ts : List FieldTok) (h : ∀ t ∈ ts, tokWF t = true) :
    buildFieldQueryL (renderToks ts) = (outToks ts, warnToks ts) := by
  induction ts with
  | nil => rfl
  | cons t ts2 ih =>
    cases ts2 with
    | nil =>
      have h1 := bfq_tok t [] (h t (by simp)) (Or.inl rfl)
      rw [List.append_nil] at h1
      show buildFieldQueryL (tokRender t) = (tokOut t, warnToks [t])
      rw [h1, bfq_nil_eq]
      unfold warnToks
      simp
    | cons t2 ts3 =>
      show buildFieldQueryL (tokRender t ++ ' ' :: renderToks (t2 :: ts3)) =
        (tokOut t ++ ' ' :: outToks (t2 :: ts3), warnToks (t :: t2 :: ts3))
      rw [bfq_tok t (' ' :: renderToks (t2 :: ts3)) (h t (by simp))
        (Or.inr ⟨renderToks (t2 :: ts3), rfl⟩)]
      rw [bfq_cons_nonword (renderToks (t2 :: ts3)) (by decide)]
      rw [ih (fun x hx => h x (List.mem_cons_of_mem t hx))]
      unfold warnToks
      simp

theorem renderToks_split {ts : List FieldTok} {t0 : FieldTok} (h : t0 ∈ ts) :
    ∃ A B, renderToks ts = A ++ (tokRender t0 ++ B) := by
  induction ts with
  | nil => cases h
  | cons t ts2 ih =>
    cases ts2 with
    | nil =>
      rcases List.mem_singleton.mp h with rfl
      exact ⟨[], [], by simp [renderToks]⟩
    | cons t2 ts3 =>
      rcases List.mem_cons.mp h with rfl | hmem
      · exact ⟨[], ' ' :: renderToks (t2 :: ts3), by simp [renderToks]⟩
      · obtain ⟨A, B, hAB⟩ := ih hmem
        refine ⟨tokRender t ++ ' ' :: A, B, ?_⟩
        show tokRender t ++ ' ' :: renderToks (t2 :: ts3) = _
        rw [hAB]
        simp [List.append_assoc]

theorem qualTok_shape {t0 : FieldTok} (hq : isQualTok t0 = true)
    (hWF : tokWF t0 = true) :
    ∃ pre fl tl, tokRender t0 = pre ++ (fl ++ ':' :: tl) ∧ fl ≠ [] ∧
      ∀ c ∈ fl, isWordChar c = true := by
  cases t0 with
  | plain t => cases hq
  | qual pre fl vl =>
    unfold tokWF at hWF
    rw [Bool.and_eq_true, Bool.and_eq_true, Bool.and_eq_true,
      Bool.and_eq_true] at hWF
    exact ⟨pre, fl, vl, by simp [tokRender], by simpa using hWF.1.1.1.2,
      List.all_eq_true.mp hWF.1.1.2⟩
  | dang pre fl =>
    unfold tokWF at hWF
    rw [Bool.and_eq_true, Bool.and_eq_true] at hWF
    exact ⟨pre, fl, [], by simp [tokRender], by simpa using hWF.1.2,
      List.all_eq_true.mp hWF.2⟩

theorem renderToks_isFieldQuery {ts : List FieldTok} {t0 : FieldTok}
    (hmem : t0 ∈ ts) (hq : isQualTok t0 = true) (hWF : tokWF t0 = true) :
    isFieldQueryL (renderToks ts) = true := by
  obtain ⟨A, B, hAB⟩ := renderToks_split hmem
  obtain ⟨pre, fl, tl, hshape, hflne, hflw⟩ := qualTok_shape hq hWF
  have hform : renderToks ts = (A ++ pre) ++ (fl ++ ':' :: (tl ++ B)) := by
    rw [hAB, hshape]
    simp [List.append_assoc]
  unfold isFieldQueryL
  rw [Bool.and_eq_true]
  constructor
  · rw [contains_iff_mem, hform]
    simp
  · rw [hform]
    exact hasFieldSpecL_append_left (A ++ pre) (hasFieldSpecL_append hflne hflw)

theorem tokRender_head {t : FieldTok} (hWF : tokWF t = true) :
    ∃ c r, tokRender t = c :: r ∧ pyIsSpace c = false := by
  cases t with
  | plain t =>
    unfold tokWF at hWF
    rw [Bool.and_eq_true, Bool.and_eq_true] at hWF
    cases t with
    | nil => simp at hWF
    | cons c r =>
      refine ⟨c, r, rfl, ?_⟩
      have := List.all_eq_true.mp hWF.1.2 c (by simp)
      simpa using this
  | qual pre fl vl =>
    unfold tokWF at hWF
    rw [Bool.and_eq_true, Bool.and_eq_true, Bool.and_eq_true,
      Bool.and_eq_true] at hWF
    obtain ⟨hpsp, hpfs, hplast⟩ := preWF_split hWF.1.1.1.1
    cases pre with
    | cons c p2 =>
      exact ⟨c, p2 ++ fl ++ ':' :: vl, by simp [tokRender, List.append_assoc],
        hpsp c (by simp)⟩
    | nil =>
      cases fl with
      | nil => simp at hWF
      | cons c f2 =>
        refine ⟨c, f2 ++ ':' :: vl, by simp [tokRender], ?_⟩
        have hcw := List.all_eq_true.mp hWF.1.1.2 c (by simp)
        exact word_not_space hcw
  | dang pre fl =>
    unfold tokWF at hWF
    rw [Bool.and_eq_true, Bool.and_eq_true] at hWF
    obtain ⟨hpsp, hpfs, hplast⟩ := preWF_split hWF.1.1
    cases pre with
    | cons c p2 =>
      exact ⟨c, p2 ++ fl ++ [':'], by simp [tokRender, List.append_assoc],
        hpsp c (by simp)⟩
    | nil =>
      cases fl with
      | nil => simp at hWF
      | cons c f2 =>
        refine ⟨c, f2 ++ [':'], by simp [tokRender], ?_⟩
        have hcw := List.all_eq_true.mp hWF.2 c (by simp)
        exact word_not_space hcw

theorem renderToks_head {ts : List FieldTok} (hne : ts ≠ [])
    (h : ∀ t ∈ ts, tokWF t = true) :
    ∃ c r, renderToks ts = c :: r ∧ pyIsSpace c = false := by
  cases ts with
  | nil => exact absurd rfl hne
  | cons t ts2 =>
    obtain ⟨c, r, hcr, hcs⟩ := tokRender_head (h t (by simp))
    cases ts2 with
    | nil => exact ⟨c, r, hcr, hcs⟩
    | cons t2 ts3 =>
      refine ⟨c, r ++ ' ' :: renderToks (t2 :: ts3), ?_, hcs⟩
      show tokRender t ++ ' ' :: renderToks (t2 :: ts3) = _
      rw [hcr]
      rfl

theorem preWF_build {pre : List Char} (h1 : ∀ c ∈ pre, pyIsSpace c = false)
    (h2 : hasFieldSpecL pre = false)
    (h3 : ∀ c, pre.getLast? = some c → isWordChar c = false) :
    preWF pre = true := by
  unfold preWF
  rw [Bool.and_eq_true, Bool.and_eq_true]
  refine ⟨⟨?_, ?_⟩, ?_⟩
  · rw [List.all_eq_true]
    intro c hc
    simp [h1 c hc]
  · simp [h2]
  · cases hl : pre.getLast? with
    | none => rfl
    | some c => simp [h3 c hl]

theorem preWF_cons_nonword {c : Char} {pre : List Char}
    (hc : isWordChar c = false) (hcs : pyIsSpace c = false)
    (hp : preWF pre = true) : preWF (c :: pre) = true := by
  obtain ⟨h1, h2, h3⟩ := preWF_split hp
  refine preWF_build ?_ ?_ ?_
  · intro x hx
    rcases List.mem_cons.mp hx with rfl | hx
    · exact hcs
    · exact h1 x hx
  · cases pre with
    | nil => rfl
    | cons p0 p2 =>
      show ((isWordChar c && (p0 == ':')) || hasFieldSpecL (p0 :: p2)) = false
      rw [hc, h2]
      rfl
  · intro x hx
    cases pre with
    | nil =>
      simp only [List.getLast?_singleton, Option.some.injEq] at hx
      subst hx
      exact hc
    | cons p0 p2 =>
      rw [getLast?_cons_ne (by simp)] at hx
      exact h3 x hx

theorem preWF_cons_ne {c p0 : Char} {p2 : List Char}
    (hcs : pyIsSpace c = false) (hp : preWF (p0 :: p2) = true)
    (hne : p0 ≠ ':') : preWF (c :: p0 :: p2) = true := by
  obtain ⟨h1, h2, h3⟩ := preWF_split hp
  refine preWF_build ?_ ?_ ?_
  · intro x hx
    rcases List.mem_cons.mp hx with rfl | hx
    · exact hcs
    · exact h1 x hx
  · show ((isWordChar c && (p0 == ':')) || hasFieldSpecL (p0 :: p2)) = false
    rw [h2]
    have : (p0 == ':') = false := by
      cases hb : p0 == ':'
      · rfl
      · exact absurd (by simpa using hb) hne
    rw [this]
    simp
  · intro x hx
    rw [getLast?_cons_ne (by simp)] at hx
    exact h3 x hx

theorem tokWF_plain_build {t : List Char} (h1 : t ≠ [])
    (h2 : ∀ c ∈ t, pyIsSpace c = false) (h3 : hasFieldSpecL t = false) :
    tokWF (FieldTok.plain t) = true := by
  unfold tokWF
  rw [Bool.and_eq_true, Bool.and_eq_true]
  refine ⟨⟨?_, ?_⟩, ?_⟩
  · simpa using h1
  · rw [List.all_eq_true]
    intro c hc
    simp [h2 c hc]
  · simp [h3]

theorem tokWF_qual_build {pre fl vl : List Char} (hp : preWF pre = true)
    (hf1 : fl ≠ []) (hf2 : ∀ c ∈ fl, isWordChar c = true) (hv1 : vl ≠ [])
    (hv2 : ∀ c ∈ vl, pyIsSpace c = false) :
    tokWF (FieldTok.qual pre fl vl) = true := by
  unfold tokWF
  rw [Bool.and_eq_true, Bool.and_eq_true, Bool.and_eq_true, Bool.and_eq_true]
  refine ⟨⟨⟨⟨hp, by simpa using hf1⟩, List.all_eq_true.mpr hf2⟩,
    by simpa using hv1⟩, ?_⟩
  rw [List.all_eq_true]
  intro c hc
  simp [hv2 c hc]

theorem tokWF_dang_build {pre fl : List Char} (hp : preWF pre = true)
    (hf1 : fl ≠ []) (hf2 : ∀ c ∈ fl, isWordChar c = true) :
    tokWF (FieldTok.dang pre fl) = true := by
  unfold tokWF
  rw [Bool.and_eq_true, Bool.and_eq_true]
  exact ⟨⟨hp, by simpa using hf1⟩, List.all_eq_true.mpr hf2⟩

theorem tok_total :
    ∀ (t : List Char), t ≠ [] → (∀ c ∈ t, pyIsSpace c = false) →
      ∃ tok, tokRender tok = t ∧ tokWF tok = true := by
  intro t
  induction t with
  | nil => intro h _; exact absurd rfl h
  | cons c t2 ih =>
    intro hne hsp
    have hcs : pyIsSpace c = false := hsp c (by simp)
    by_cases hpair : isWordChar c = true ∧ ∃ u, t2 = ':' :: u
    · obtain ⟨hcw, u, hu⟩ := hpair
      subst hu
      cases u with
      | nil =>
        refine ⟨FieldTok.dang [] [c], by simp [tokRender], ?_⟩
        exact tokWF_dang_build (by decide) (by simp)
          (fun x hx => by rcases List.mem_singleton.mp hx with rfl; exact hcw)
      | cons v0 u2 =>
        refine ⟨FieldTok.qual [] [c] (v0 :: u2), by simp [tokRender], ?_⟩
        refine tokWF_qual_build (by decide) (by simp)
          (fun x hx => by rcases List.mem_singleton.mp hx with rfl; exact hcw)
          (by simp) ?_
        intro x hx
        exact hsp x (by simp only [List.mem_cons] at hx ⊢; tauto)
    · cases t2 with
      | nil =>
        exact ⟨FieldTok.plain [c], rfl,
          tokWF_plain_build (by simp)
            (fun x hx => by rcases List.mem_singleton.mp hx with rfl; exact hcs)
            rfl⟩
      | cons b u =>
        have hsp2 : ∀ x ∈ b :: u, pyIsSpace x = false := fun x hx =>
          hsp x (List.mem_cons_of_mem c hx)
        obtain ⟨tok2, hrend, hWF2⟩ := ih (by simp) hsp2
        have hkey : isWordChar c = false ∨ b ≠ ':' := by
          by_cases hcw : isWordChar c = true
          · right
            intro hb
            exact hpair ⟨hcw, u, by rw [hb]⟩
          · left
            cases h2 : isWordChar c
            · rfl
            · exact absurd h2 hcw
        cases tok2 with
        | plain p =>
          have hp : p = b :: u := hrend
          subst hp
          unfold tokWF at hWF2
          rw [Bool.and_eq_true, Bool.and_eq_true] at hWF2
          have hfs : hasFieldSpecL (b :: u) = false := by simpa using hWF2.2
          refine ⟨FieldTok.plain (c :: b :: u), rfl, ?_⟩
          refine tokWF_plain_build (by simp) hsp ?_
          show ((isWordChar c && (b == ':')) || hasFieldSpecL (b :: u)) = false
          rw [hfs]
          rcases hkey with hk | hk
          · rw [hk]; rfl
          · have : (b == ':') = false := by
              cases hb2 : b == ':'
              · rfl
              · exact absurd (by simpa using hb2) hk
            rw [this]
            simp
        | qual pre fl vl =>
          have hrend2 : pre ++ (fl ++ ':' :: vl) = b :: u := by
            have : pre ++ fl ++ ':' :: vl = b :: u := hrend
            rw [← this]
            simp [List.append_assoc]
          unfold tokWF at hWF2
          rw [Bool.and_eq_true, Bool.and_eq_true, Bool.and_eq_true,
            Bool.and_eq_true] at hWF2
          obtain ⟨⟨⟨⟨hpre, hflne⟩, hflw⟩, hvlne⟩, hvl⟩ := hWF2
          by_cases hcw : isWordChar c = true
          · cases pre with
            | nil =>
              refine ⟨FieldTok.qual [] (c :: fl) vl, ?_, ?_⟩
              · show (c :: fl) ++ ':' :: vl = c :: b :: u
                simp only [List.nil_append] at hrend2
                rw [List.cons_append, hrend2]
              · refine tokWF_qual_build (by decide) (by simp) ?_
                  (by simpa using hvlne) ?_
                · intro x hx
                  rcases List.mem_cons.mp hx with rfl | hx
                  · exact hcw
                  · exact List.all_eq_true.mp hflw x hx
                · intro x hx
                  have := List.all_eq_true.mp hvl x hx
                  simpa using this
            | cons p0 p2 =>
              have hp0 : p0 = b := by
                have := hrend2
                rw [List.cons_append] at this
                injection this with h1 h2
              have hbne : b ≠ ':' := by
                rcases hkey with hk | hk
                · rw [hcw] at hk; cases hk
                · exact hk
              refine ⟨FieldTok.qual (c :: p0 :: p2) fl vl, ?_, ?_⟩
              · show (c :: p0 :: p2) ++ fl ++ ':' :: vl = c :: b :: u
                simp only [List.cons_append, List.append_assoc] at hrend2 ⊢
                rw [hrend2]
              · refine tokWF_qual_build ?_ (by simpa using hflne)
                  (List.all_eq_true.mp hflw) (by simpa using hvlne) ?_
                · exact preWF_cons_ne hcs hpre (hp0 ▸ hbne)
                · intro x hx
                  have := List.all_eq_true.mp hvl x hx
                  simpa using this
          · have hc2 : isWordChar c = false := by
              cases h2 : isWordChar c
              · rfl
              · exact absurd h2 hcw
            refine ⟨FieldTok.qual (c :: pre) fl vl, ?_, ?_⟩
            · show (c :: pre) ++ fl ++ ':' :: vl = c :: b :: u
              simp only [List.cons_append, List.append_assoc] at hrend2 ⊢
              rw [hrend2]
            · refine tokWF_qual_build (preWF_cons_nonword hc2 hcs hpre)
                (by simpa using hflne) (List.all_eq_true.mp hflw)
                (by simpa using hvlne) ?_
              intro x hx
              have := List.all_eq_true.mp hvl x hx
              simpa using this
        | dang pre fl =>
          have hrend2 : pre ++ (fl ++ [':']) = b :: u := by
            have : pre ++ fl ++ [':'] = b :: u := hrend
            rw [← this]
            simp [List.append_assoc]
          unfold tokWF at hWF2
          rw [Bool.and_eq_true, Bool.and_eq_true] at hWF2
          obtain ⟨⟨hpre, hflne⟩, hflw⟩ := hWF2
          by_cases hcw : isWordChar c = true
          · cases pre with
            | nil =>
              refine ⟨FieldTok.dang [] (c :: fl), ?_, ?_⟩
              · show (c :: fl) ++ [':'] = c :: b :: u
                simp only [List.nil_append] at hrend2
                rw [List.cons_append, hrend2]
              · refine tokWF_dang_build (by decide) (by simp) ?_
                intro x hx
                rcases List.mem_cons.mp hx with rfl | hx
                · exact hcw
                · exact List.all_eq_true.mp hflw x hx
            | cons p0 p2 =>
              have hp0 : p0 = b := by
                have := hrend2
                rw [List.cons_append] at this
                injection this with h1 h2
              have hbne : b ≠ ':' := by
                rcases hkey with hk | hk
                · rw [hcw] at hk; cases hk
                · exact hk
              refine ⟨FieldTok.dang (c :: p0 :: p2) fl, ?_, ?_⟩
              · show (c :: p0 :: p2) ++ fl ++ [':'] = c :: b :: u
                simp only [List.cons_append, List.append_assoc] at hrend2 ⊢
                rw [hrend2]
              · exact tokWF_dang_build (preWF_cons_ne hcs hpre (hp0 ▸ hbne))
                  (by simpa using hflne) (List.all_eq_true.mp hflw)
          · have hc2 : isWordChar c = false := by
              cases h2 : isWordChar c
              · rfl
              · exact absurd h2 hcw
            refine ⟨FieldTok.dang (c :: pre) fl, ?_, ?_⟩
            · show (c :: pre) ++ fl ++ [':'] = c :: b :: u
              simp only [List.cons_append, List.append_assoc] at hrend2 ⊢
              rw [hrend2]
            · exact tokWF_dang_build (preWF_cons_nonword hc2 hcs hpre)
                (by simpa using hflne) (List.all_eq_true.mp hflw)

/-- C8 (field-qualifier translation): every nonempty whitespace-free token
decomposes as inert text (no word-char/colon pair), a field:value qualifier
occurrence preceded by inert text, or a valueless dangling-colon spec at the
token end; and for every normal-form query assembled from such tokens that
contains at least one qualifier, the field path rewrites each recognized
field:value occurrence to the scoped syntax computed from the lowercased
field, with no warning, strips each unrecognized occurrence to its bare
value while emitting "Unknown field (field), searching in all fields", and
passes inert text and valueless specs through unchanged, with the warnings
accumulated in occurrence order; in particular translate("author:feynman")
yields ("\x7bauthor\x7d:feynman", []) and translate("bogus:feynman")
yields ("feynman", [the unknown-field warning for bogus]). -/
theorem claim_C8 :
    (∀ t : List Char, t ≠ [] → (∀ c ∈ t, pyIsSpace c = false) →
      ∃ tok, tokRender tok = t ∧ tokWF tok = true) ∧
    (∀ ts : List FieldTok, ts ≠ [] → (∀ t ∈ ts, tokWF t = true) →
      (∃ t ∈ ts, isQualTok t = true) →
      normalizeQueryL (renderToks ts) = renderToks ts →
      parse_query (String.mk (renderToks ts)) =
        (String.mk (outToks ts), warnToks ts)) ∧
    parse_query "author:feynman" = ("{author}:feynman", []) ∧
    parse_query "bogus:feynman" = ("feynman", [unknownFieldMsg "bogus"]) := by
  refine ⟨tok_total, ?_, by decide, by decide⟩
  intro ts hne hWF hex hnorm
  obtain ⟨t0, ht0, hq⟩ := hex
  obtain ⟨c, r, hcr, hcs⟩ := renderToks_head hne hWF
  have hne2 : renderToks ts ≠ [] := by rw [hcr]; simp
  have hstrip : pyStripL (renderToks ts) ≠ [] :=
    pyStripL_ne_nil (by rw [hcr]; simp) hcs
  have hfq := renderToks_isFieldQuery ht0 hq (hWF t0 ht0)
  unfold parse_query
  rw [toList_mk]
  rw [if_neg (by push_neg; exact ⟨hne2, hstrip⟩)]
  simp only [hnorm, hfq, if_true]
  rw [bfq_toks ts hWF]

/-- C9 (amended, wildcard translation): for every query classified to the
wildcard path, translation rewrites every question mark to a star, and the
warnings are exactly one warning for each whitespace-split term that contains
a star and does not end with a star. (The original claim warned for every
term with a star at a non-final position; a term such as "a*b*" with an inner
star but a trailing star produces no warning.) -/
theorem claim_C9 :
    ∀ q : String, q.toList ≠ [] → pyStripL q.toList ≠ [] →
      normalizeQueryL q.toList = q.toList →
      isFieldQueryL q.toList = false → isBooleanQueryL q.toList = false →
      isPhraseQueryL q.toList = false → hasWildcardsL q.toList = true →
      parse_query q =
        (String.mk (q.toList.map (fun c => if c == '?' then '*' else c)),
         (pySplitL (q.toList.map (fun c => if c == '?' then '*' else c))).filterMap
           wildWarnOpt) := by
  intro q hne hstrip hnorm hfq hbq hpq hwq
  unfold parse_query
  rw [if_neg (by push_neg; exact ⟨hne, hstrip⟩)]
  simp only [hnorm, hfq, hbq, hpq, hwq, Bool.false_eq_true, if_false, if_true]
  unfold buildWildcardQueryL
  simp only []
  by_cases hg : ((q.toList.map (fun c => if c == '?' then '*' else c)).dropLast).contains '*' = true
  · rw [if_pos hg, foldl_warn_eq_filterMap, List.nil_append]
  · rw [if_neg hg]
    rw [wildWarnings_nil (fun hm => hg (contains_iff_mem.mpr hm))]

/-- C9 counterexample: "a*b*" is classified to the wildcard path and its sole
term carries a star at a non-final position, yet no warning is emitted. -/
theorem claim_C9_cex :
    isFieldQueryL "a*b*".toList = false ∧ isBooleanQueryL "a*b*".toList = false ∧
    isPhraseQueryL "a*b*".toList = false ∧ hasWildcardsL "a*b*".toList = true ∧
    pySplitL "a*b*".toList = ["a*b*".toList] ∧ ('*' ∈ "a*b*".toList.dropLast) ∧
    parse_query "a*b*" = ("a*b*", []) :=
  ⟨by decide, by decide, by decide, by decide, by decide, by decide, by decide⟩

/-- C9 witness: the amended statement evaluated at the query "a*b c?". -/
theorem claim_C9_witness :
    parse_query "a*b c?" = ("a*b c*", [wildMsg "a*b"]) := by
  have h := claim_C9 "a*b c?" (by decide) (by decide) (by decide) (by decide)
    (by decide) (by decide) (by decide)
  exact h.trans (by decide)

/-- C8 witness: the general statement applied to the three-token query
"quantum author:feynman bogus:x" (inert text, a recognized qualifier and an
unknown-field qualifier), after evaluating the token rendering. -/
theorem claim_C8_witness :
    parse_query "quantum author:feynman bogus:x" =
      ("quantum {author}:feynman x", [unknownFieldMsg "bogus"]) := by
  have h := claim_C8.2.1 [FieldTok.plain "quantum".toList,
      FieldTok.qual [] "author".toList "feynman".toList,
      FieldTok.qual [] "bogus".toList "x".toList]
    (by decide) (by decide) (by decide) (by decide)
  have e1 : String.mk (renderToks [FieldTok.plain "quantum".toList,
      FieldTok.qual [] "author".toList "feynman".toList,
      FieldTok.qual [] "bogus".toList "x".toList]) =
      "quantum author:feynman bogus:x" := by decide
  rw [e1] at h
  exact h.trans (by decide)

/-! ## Lemmas for the index-store claims -/

theorem idsStrictAsc_tail {a : EntryRow} {t : List EntryRow}
    (h : idsStrictAsc (a :: t) = true) : idsStrictAsc t = true := by
  cases t with
  | nil => rfl
  | cons b u =>
    unfold idsStrictAsc at h
    rw [Bool.and_eq_true] at h
    exact h.2

theorem idsStrictAsc_head_lt {a : EntryRow} {t : List EntryRow}
    (h : idsStrictAsc (a :: t) = true) : ∀ y ∈ t, a.id < y.id := by
  induction t generalizing a with
  | nil => intro y hy; simp at hy
  | cons b u ih =>
    intro y hy
    unfold idsStrictAsc at h
    rw [Bool.and_eq_true] at h
    have hab : a.id < b.id := of_decide_eq_true h.1
    rcases List.mem_cons.mp hy with h1 | h1
    · exact h1 ▸ hab
    · exact Nat.lt_trans hab (ih h.2 y h1)

theorem insertIdDesc_all_gt {a : EntryRow} {l : List EntryRow}
    (h : ∀ y ∈ l, a.id < y.id) : insertIdDesc a l = l ++ [a] := by
  induction l with
  | nil => rfl
  | cons y ys ih =>
    have hy : a.id < y.id := h y (List.mem_cons_self y ys)
    unfold insertIdDesc
    rw [if_neg (by omega)]
    rw [ih (fun z hz => h z (List.mem_cons_of_mem y hz))]
    rfl

theorem sortIdDesc_eq_reverse {l : List EntryRow}
    (h : idsStrictAsc l = true) : sortIdDesc l = l.reverse := by
  induction l with
  | nil => rfl
  | cons a t ih =>
    unfold sortIdDesc at ih ⊢
    rw [List.foldr_cons, ih (idsStrictAsc_tail h)]
    rw [insertIdDesc_all_gt (fun y hy => idsStrictAsc_head_lt h y (List.mem_reverse.mp hy))]
    simp

theorem clampScore_fifty : clampScore 50 = 0 := by
  have h1 : absQ (50 : ℚ) = 50 := by
    unfold absQ
    rw [if_neg (by norm_num)]
  unfold clampScore
  rw [h1]
  have h2 : minQ 100 (100 - (50 : ℚ) * 10) = 100 - 50 * 10 := by
    unfold minQ
    rw [if_neg (by norm_num)]
  rw [h2]
  unfold maxQ
  rw [if_neg (by norm_num)]

theorem filter_keep_all {l : List FtsRow} {keys : List String}
    (h : ∀ r ∈ l, r.key ∈ keys) :
    l.filter (fun r => !(keys.contains r.key)) = [] := by
  rw [List.filter_eq_nil_iff]
  intro r hr
  rw [contains_iff_mem.mpr (h r hr)]
  simp

theorem filter_ne_key_eq_self {l : List EntryRow} {k : String}
    (h : k ∉ l.map EntryRow.key) :
    l.filter (fun r => !(r.key == k)) = l := by
  induction l with
  | nil => rfl
  | cons r rs ih =>
    have hr : ¬(r.key = k) := by
      intro he
      exact h (by rw [← he]; exact List.mem_map_of_mem EntryRow.key (List.mem_cons_self r rs))
    rw [List.filter_cons]
    rw [if_pos (by simp [hr])]
    rw [ih (fun hm => h (List.mem_cons_of_mem _ hm))]

theorem batch_counts :
    ∀ (es : List BibEntry) (db : DbState),
      ((es.map BibEntry.key).Nodup) →
      (∀ k ∈ es.map BibEntry.key, k ∉ db.entries.map EntryRow.key) →
      (insert_entries_batch db es).entries.length = db.entries.length + es.length ∧
      (insert_entries_batch db es).fts.length = db.fts.length + es.length := by
  intro es
  induction es with
  | nil => intro db h1 h2; constructor <;> rfl
  | cons e t ih =>
    intro db h1 h2
    have hek : e.key ∉ db.entries.map EntryRow.key :=
      h2 e.key (by simp)
    have hstep : insert_entries_batch db (e :: t) =
        insert_entries_batch (insert_entry db e) t := rfl
    have hkeys : (insert_entry db e).entries.map EntryRow.key =
        db.entries.map EntryRow.key ++ [e.key] := by
      unfold insert_entry
      rw [filter_ne_key_eq_self hek]
      simp
    have h1t : (t.map BibEntry.key).Nodup := by
      simp only [List.map_cons, List.nodup_cons] at h1
      exact h1.2
    have henotin : e.key ∉ t.map BibEntry.key := by
      simp only [List.map_cons, List.nodup_cons] at h1
      exact h1.1
    have h2t : ∀ k ∈ t.map BibEntry.key, k ∉ (insert_entry db e).entries.map EntryRow.key := by
      intro k hk
      rw [hkeys]
      intro hmem
      rcases List.mem_append.mp hmem with hm | hm
      · exact h2 k (List.mem_cons_of_mem _ hk) hm
      · rcases List.mem_singleton.mp hm with rfl
        exact henotin hk
    have hlen : (insert_entry db e).entries.length = db.entries.length + 1 := by
      unfold insert_entry
      rw [filter_ne_key_eq_self hek]
      simp
    have hflen : (insert_entry db e).fts.length = db.fts.length + 1 := by
      unfold insert_entry
      simp
    rw [hstep]
    obtain ⟨ha, hb⟩ := ih (insert_entry db e) h1t h2t
    constructor
    · rw [ha, hlen]; simp [List.length_cons]; omega
    · rw [hb, hflen]; simp [List.length_cons]; omega

/-- C5 (amended, empty-query browse): for every database state with
ascending rowids, every limit and offset, searching with a blank query
returns the up-to-limit most-recently-inserted primary rows in reverse
insertion order - not an empty result - each assigned the same fixed score 0
(the SQL placeholder rank 50 is passed through the display normalization
`max(0, min(100, 100 - abs(rank)*10))`, which collapses it to 0 rather than
surfacing 50). -/
theorem claim_C5 :
    ∀ (db : DbState) (oracle : String → Except Unit (List (String × ℚ)))
      (q : String) (limit offset : Nat),
      pyBlankB q = true → idsStrictAsc db.entries = true →
      search_fts db oracle q limit offset =
        ((db.entries.reverse.drop offset).take limit).map
          (fun r => (rowToEntry r, (0 : ℚ))) := by
  intro db oracle q limit offset hq hasc
  unfold search_fts
  rw [if_pos hq, sortIdDesc_eq_reverse hasc, clampScore_fifty]

/-- C5 counterexample: on a one-record database the blank-query search
returns the record with score 0; the claimed fixed placeholder score 50 is
not what the call returns. -/
theorem claim_C5_cex :
    search_fts dbC5 oracleNone "" 20 0 =
      [(⟨"k", "article", [("title", some "A")], "f"⟩, (0 : ℚ))] ∧
    ((0 : ℚ) ≠ 50) := by
  constructor
  · unfold search_fts
    rw [if_pos (by decide)]
    have h1 : sortIdDesc dbC5.entries =
        [⟨1, "k", "article", "f", [("title", some "A")]⟩] := rfl
    rw [h1]
    simp [rowToEntry, clampScore_fifty]
  · norm_num

/-- C5 witness: the amended claim evaluated on a two-record database with
limit 1 returns the most recently inserted record, score 0. -/
theorem claim_C5_witness :
    search_fts dbC5b oracleNone "" 1 0 =
      [(⟨"k2", "article", [("title", some "B")], "f"⟩, (0 : ℚ))] := by
  have h := claim_C5 dbC5b oracleNone "" 1 0 (by decide) (by decide)
  exact h.trans (by rfl)

/-- C6 (query-syntax degradation): whenever the full-text backend rejects the
(non-blank) translated query as invalid syntax, `search_fts` returns the
empty list instead of propagating the exception, and so does
`SearchEngine.search` for every sort mode. -/
theorem claim_C6 :
    (∀ (db : DbState) (oracle : String → Except Unit (List (String × ℚ)))
       (q : String) (limit offset : Nat),
       pyBlankB q = false → oracle q = .error () →
       search_fts db oracle q limit offset = []) ∧
    (∀ (db : DbState) (oracle : String → Except Unit (List (String × ℚ)))
       (q : String) (limit offset : Nat) (sortBy : String),
       pyBlankB (prepare_fts_query q) = false →
       oracle (prepare_fts_query q) = .error () →
       searchEngineSearch db oracle q limit offset sortBy = []) := by
  constructor
  · intro db oracle q limit offset hq horc
    unfold search_fts
    rw [if_neg (by rw [hq]; simp), horc]
  · intro db oracle q limit offset sortBy hq horc
    unfold searchEngineSearch
    have h1 : search_fts db oracle (prepare_fts_query q) limit offset = [] := by
      unfold search_fts
      rw [if_neg (by rw [hq]; simp), horc]
    rw [h1]
    simp only [List.map_nil]
    simp [sortResultsBy]

/-- C6 witness: a rejecting backend yields empty results for a concrete
non-blank query, both at the database layer and through the search engine. -/
theorem claim_C6_witness :
    search_fts dbC5 oracleErr "q" 20 0 = [] ∧
    searchEngineSearch dbC5 oracleErr "q" 20 0 "year" = [] :=
  ⟨claim_C6.1 dbC5 oracleErr "q" 20 0 (by decide) rfl,
   claim_C6.2 dbC5 oracleErr "q" 20 0 "year" (by decide) rfl⟩

/-- C2 (amended, index parity): for every repository state whose records have
pairwise-distinct keys and every starting database whose projection rows all
have keys present in the primary table (an empty or previously consistent
index), `check_fts_consistency` reports consistency immediately after
`build_index`. (Unconditionally the claim fails: `INSERT OR REPLACE` does not
fire the delete trigger, so duplicate repository keys leave an extra
projection row.) -/
theorem claim_C2 :
    ∀ (st : RepoState) (db : DbState),
      ((load_entries st false).1.map BibEntry.key).Nodup →
      (∀ r ∈ db.fts, r.key ∈ db.entries.map EntryRow.key) →
      check_fts_consistency (build_index_from_repo st db) = true := by
  intro st db hnd hcov
  unfold build_index_from_repo build_index
  rw [if_pos rfl]
  have hclear : clear_all db = ⟨[], [], db.nextId⟩ := by
    unfold clear_all
    rw [filter_keep_all hcov]
  rw [hclear]
  rcases hes : (load_entries st false).1 with _ | ⟨e, t⟩
  · rw [if_pos (by simp)]
    rfl
  · rw [if_neg (by simp)]
    unfold optimizeDb
    rw [hes] at hnd
    obtain ⟨ha, hb⟩ := batch_counts (e :: t) ⟨[], [], db.nextId⟩ hnd (by simp)
    unfold check_fts_consistency
    rw [ha, hb]
    simp

/-- C2 counterexample: a repository whose two files both hold the key "k",
indexed into a fresh database, ends with one primary row but two projection
rows, so the consistency check fails right after `build_index`. -/
theorem claim_C2_cex :
    check_fts_consistency (build_index_from_repo rsDupKeys dbEmpty) = false ∧
    (build_index_from_repo rsDupKeys dbEmpty).entries.length = 1 ∧
    (build_index_from_repo rsDupKeys dbEmpty).fts.length = 2 :=
  ⟨by decide, by decide, by decide⟩

/-- C2 witness: the amended claim evaluated on a distinct-key repository and
an empty database. -/
theorem claim_C2_witness :
    check_fts_consistency (build_index_from_repo stCold dbEmpty) = true :=
  claim_C2 stCold dbEmpty (by decide) (by decide)

/-! ## Record-store claims: lookup, dry-run and duplicate handling -/

theorem load_false_cache_ne {st : RepoState} (h : st.cache ≠ []) :
    load_entries st false = ((st.cache.map Prod.snd).flatten, st) := by
  unfold load_entries
  rw [if_pos]
  cases hcc : st.cache with
  | nil => exact absurd hcc h
  | cons a t => simp [hcc, List.isEmpty]

/-- C7 (NotFound is non-exceptional): for every key absent from the store,
`get_entry`, `remove_entry`, `update_entry` and `move_entry` return
`None`/empty (the latter without raising) - absence is never an exception. -/
theorem claim_C7 :
    ∀ (st : RepoState) (k : String) (ch : List (String × Option String)) (tgt : String),
      (load_entries st false).1.all (fun e => !(e.key == k)) = true →
      (get_entry st k).1 = none ∧ (remove_entry st k).1 = none ∧
      (update_entry st k ch).1 = none ∧ (move_entry st k tgt).1 = .ok none := by
  intro st k ch tgt habs
  have hfind : (load_entries st false).1.find? (fun e => e.key == k) = none := by
    rw [List.find?_eq_none]
    intro e he
    have h1 := List.all_eq_true.mp habs e he
    simpa using h1
  have hg : (get_entry st k).1 = none := by
    unfold get_entry
    simpa using hfind
  refine ⟨hg, ?_, ?_, ?_⟩
  · unfold remove_entry
    simp [hg]
  · unfold update_entry
    simp [hg]
  · unfold move_entry
    simp [hg]

/-- C7 witness: the four operations evaluated on a loaded one-record store
and the absent key "zzz". -/
theorem claim_C7_witness :
    (get_entry stWarm "zzz").1 = none ∧ (remove_entry stWarm "zzz").1 = none ∧
    (update_entry stWarm "zzz" [("title", some "X")]).1 = none ∧
    (move_entry stWarm "zzz" "r/q.bib").1 = .ok none :=
  claim_C7 stWarm "zzz" [("title", some "X")] "r/q.bib" (by decide)

/-- C10 (amended, no-op move): provided the cache is populated (nonempty),
moving a key whose current source file equals the requested target returns
the record immediately and the state - disk, cache and any active changeset -
is completely unchanged. (With a cold cache the claim fails as stated: the
lookup itself populates the cache, though still no save happens.) -/
theorem claim_C10 :
    ∀ (st : RepoState) (k f : String) (e : BibEntry),
      st.cache ≠ [] → (get_entry st k).1 = some e → e.source_file = f →
      move_entry st k f = (.ok (some e), st) := by
  intro st k f e hne hfound hsf
  have hload := load_false_cache_ne hne
  have hst2 : (get_entry st k).2 = st := by
    unfold get_entry
    rw [hload]
  unfold move_entry
  simp only [hfound]
  rw [if_pos (by rw [hsf]; exact beq_self_eq_true f)]
  rw [hst2]

/-- C10 counterexample: on a cold cache the same no-op move returns the
record but the file-to-records cache is populated by the lookup, so it is not
unchanged as the claim states. -/
theorem claim_C10_cex :
    (get_entry stCold "k").1 = some entA ∧
    (move_entry stCold "k" "r/bibtex/by-type/article.bib").1 = .ok (some entA) ∧
    (move_entry stCold "k" "r/bibtex/by-type/article.bib").2.cache ≠ stCold.cache :=
  ⟨by decide, by decide, by decide⟩

/-- C10 witness: the amended claim evaluated on the loaded store. -/
theorem claim_C10_witness :
    move_entry stWarm "k" "r/bibtex/by-type/article.bib" = (.ok (some entA), stWarm) :=
  claim_C10 stWarm "k" "r/bibtex/by-type/article.bib" entA (by decide) (by decide)
    (by decide)

/-- C3 (code bug, dry-run non-mutation): with dry-run enabled on a loaded
one-record store, `move_entry` does leave the disk unchanged, but it raises
the duplicate-key `ValueError` (the key-existence check is not bypassed, and
the dry-run save does not update the cache, so the key is still found) and it
mutates the cached record's `source_file` in place: `get_entry` during the
session, and `load_entries` after `disable_dry_run`, report the record under
the move target instead of the pre-change state. -/
theorem claim_C3 :
    (move_entry stC3 "k" "r/bibtex/by-type/book.bib").1 =
      .error (dupKeyMsg "k" "r/bibtex/by-type/book.bib") ∧
    (move_entry stC3 "k" "r/bibtex/by-type/book.bib").2.disk = stC3.disk ∧
    ((get_entry stC3 "k").1.map (fun e => e.source_file) =
      some "r/bibtex/by-type/article.bib") ∧
    ((get_entry (move_entry stC3 "k" "r/bibtex/by-type/book.bib").2 "k").1.map
      (fun e => e.source_file) = some "r/bibtex/by-type/book.bib") ∧
    ((load_entries (disable_dry_run (move_entry stC3 "k" "r/bibtex/by-type/book.bib").2)
        false).1.map (fun e => e.source_file) = ["r/bibtex/by-type/book.bib"]) :=
  ⟨by decide, by decide, by decide, by decide, by decide⟩

/-- C4 (code bug, duplicate-key rejection): on a freshly constructed
repository (cold cache) whose store contains the key "k" in `a.bib`,
`add_entry` of another record with key "k" into `b.bib` succeeds instead of
raising: the duplicate check consults the cached flattening, which at that
point holds only the target file. Afterwards the store contains two records
with the same key. -/
theorem claim_C4 :
    (add_entry stC4 entDup (some "r/bibtex/b.bib")).1 = .ok () ∧
    ((load_entries stC4 true).1.map BibEntry.key = ["k"]) ∧
    ((load_entries (add_entry stC4 entDup (some "r/bibtex/b.bib")).2 true).1.map
      (fun e => (e.key, e.source_file)) =
      [("k", "r/bibtex/a.bib"), ("k", "r/bibtex/b.bib")]) :=
  ⟨by decide, by decide, by decide⟩

/-! ## Store-wide key uniqueness: lemmas and the C1 claim -/

section AList
variable {α : Type _}

theorem alGet_eq_none_of_not_mem {l : List (String × α)} {k : String}
    (h : k ∉ l.map Prod.fst) : alGet l k = none := by
  unfold alGet
  rw [List.find?_eq_none.mpr]
  · rfl
  · intro p hp hbeq
    have hpk : p.1 = k := by simpa using hbeq
    exact h (hpk ▸ List.mem_map_of_mem Prod.fst hp)

theorem mem_of_alGet_some {l : List (String × α)} {k : String} {v : α}
    (h : alGet l k = some v) : k ∈ l.map Prod.fst := by
  by_contra hm
  rw [alGet_eq_none_of_not_mem hm] at h
  cases h

theorem alSet_of_not_mem {l : List (String × α)} {k : String} (v : α)
    (h : k ∉ l.map Prod.fst) : alSet l k v = l ++ [(k, v)] := by
  induction l with
  | nil => rfl
  | cons p t ih =>
    have hk : ¬(p.1 == k) = true := by
      intro hb
      have hpk : p.1 = k := by simpa using hb
      exact h (hpk ▸ List.mem_map_of_mem Prod.fst (List.mem_cons_self p t))
    unfold alSet
    rw [if_neg hk]
    rw [ih (fun hm => h (by rw [List.map_cons]; exact List.mem_cons_of_mem _ hm))]
    rfl

theorem alGet_cons_self {p : String × α} {t : List (String × α)}
    (h : (p.1 == p.1) = true := by simp) : alGet (p :: t) p.1 = some p.2 := by
  unfold alGet
  simp [List.find?]

theorem alGet_cons_of_neg {p : String × α} {t : List (String × α)} {k : String}
    (h : (p.1 == k) = false) : alGet (p :: t) k = alGet t k := by
  unfold alGet
  simp only [List.find?, h]

theorem alGet_alSet_self {l : List (String × α)} {k : String} {v : α} :
    alGet (alSet l k v) k = some v := by
  induction l with
  | nil =>
    unfold alSet alGet
    simp [List.find?]
  | cons p t ih =>
    unfold alSet
    by_cases hp : (p.1 == k) = true
    · rw [if_pos hp]
      unfold alGet
      simp [List.find?]
    · rw [if_neg hp]
      rw [alGet_cons_of_neg (by simpa using hp)]
      exact ih

theorem alGet_alSet_ne {l : List (String × α)} {k g : String} {v : α}
    (h : g ≠ k) : alGet (alSet l k v) g = alGet l g := by
  have hkg : (k == g) = false := by
    simp only [beq_eq_false_iff_ne, ne_eq]
    exact fun he => h he.symm
  induction l with
  | nil =>
    unfold alSet
    rw [alGet_cons_of_neg hkg]
  | cons p t ih =>
    unfold alSet
    by_cases hp : (p.1 == k) = true
    · rw [if_pos hp]
      have hpk : p.1 = k := by simpa using hp
      rw [alGet_cons_of_neg hkg]
      rw [alGet_cons_of_neg (by rw [hpk]; exact hkg)]
    · rw [if_neg hp]
      cases hpg : (p.1 == g) with
      | true =>
        have hpg2 : p.1 = g := by simpa using hpg
        rw [← hpg2]
        rw [alGet_cons_self, alGet_cons_self]
      | false =>
        rw [alGet_cons_of_neg hpg, alGet_cons_of_neg hpg]
        exact ih

theorem alSet_names_of_mem {l : List (String × α)} {k : String} (v : α)
    (h : k ∈ l.map Prod.fst) : (alSet l k v).map Prod.fst = l.map Prod.fst := by
  induction l with
  | nil => simp at h
  | cons p t ih =>
    unfold alSet
    by_cases hp : (p.1 == k) = true
    · rw [if_pos hp]
      have hpk : p.1 = k := by simpa using hp
      simp [hpk]
    · rw [if_neg hp]
      have hkt : k ∈ t.map Prod.fst := by
        rw [List.map_cons] at h
        rcases List.mem_cons.mp h with h1 | h1
        · exact absurd (by simp [h1]) hp
        · exact h1
      simp [ih hkt]

theorem alSplit {l : List (String × α)} {k : String} {es : α}
    (hnd : (l.map Prod.fst).Nodup) (hget : alGet l k = some es) :
    ∃ A B, l = A ++ (k, es) :: B ∧ k ∉ A.map Prod.fst ∧ k ∉ B.map Prod.fst ∧
      ∀ v, alSet l k v = A ++ (k, v) :: B := by
  induction l with
  | nil => cases hget
  | cons p t ih =>
    rw [List.map_cons, List.nodup_cons] at hnd
    by_cases hp : (p.1 == k) = true
    · have hpk : p.1 = k := by simpa using hp
      have hes : p.2 = es := by
        unfold alGet at hget
        simp only [List.find?, hp] at hget
        simpa using hget
      refine ⟨[], t, ?_, by simp, ?_, ?_⟩
      · simp [← hpk, ← hes]
      · rw [← hpk]
        exact hnd.1
      · intro v
        unfold alSet
        rw [if_pos hp]
        rfl
    · have hget2 : alGet t k = some es := by
        rw [← alGet_cons_of_neg (p := p) (by simpa using hp)]
        exact hget
      obtain ⟨A, B, h1, h2, h3, h4⟩ := ih hnd.2 hget2
      refine ⟨p :: A, B, by rw [List.cons_append, h1], ?_, h3, ?_⟩
      · rw [List.map_cons]
        intro hm
        rcases List.mem_cons.mp hm with h5 | h5
        · exact hp (by simp [h5.symm])
        · exact h2 h5
      · intro v
        unfold alSet
        rw [if_neg hp, h4 v]
        rfl

theorem alGet_of_pair_mem {l : List (String × α)} {k : String} {es : α}
    (hnd : (l.map Prod.fst).Nodup) (hm : (k, es) ∈ l) : alGet l k = some es := by
  induction l with
  | nil => simp at hm
  | cons p t ih =>
    rw [List.map_cons, List.nodup_cons] at hnd
    rcases List.mem_cons.mp hm with h1 | h1
    · rw [← h1]
      exact alGet_cons_self
    · have hne : (p.1 == k) = false := by
        rw [beq_eq_false_iff_ne, ne_eq]
        intro hpk
        have hkt : k ∈ t.map Prod.fst := by
          rw [show k = (k, es).1 from rfl]
          exact List.mem_map_of_mem Prod.fst h1
        exact hnd.1 (hpk ▸ hkt)
      rw [alGet_cons_of_neg hne]
      exact ih hnd.2 h1

end AList

theorem find?_eq_of_mem_of_unique {α : Type _} {p : α → Bool} {l : List α} {x : α}
    (hx : x ∈ l) (hpx : p x = true) (huniq : ∀ y ∈ l, p y = true → y = x) :
    l.find? p = some x := by
  induction l with
  | nil => simp at hx
  | cons a t ih =>
    cases hpa : p a with
    | true =>
      rw [List.find?_cons_of_pos _ hpa]
      rw [huniq a (List.mem_cons_self a t) hpa]
    | false =>
      rw [List.find?_cons_of_neg _ (by simp [hpa])]
      have hxa : x ≠ a := fun he => by rw [he] at hpx; rw [hpx] at hpa; cases hpa
      rcases List.mem_cons.mp hx with h1 | h1
      · exact absurd h1 hxa
      · exact ih h1 (fun y hy hpy => huniq y (List.mem_cons_of_mem a hy) hpy)



theorem flatB_split {A B : List (String × List BibEntry)} {f : String}
    {es : List BibEntry} :
    flatB (A ++ (f, es) :: B) = flatB A ++ es ++ flatB B := by
  unfold flatB
  simp

theorem keysComplete_full {st : RepoState} (h : Inv st) :
    ∀ f, diskKeysAt st f = cacheKeysAt st f := by
  intro f
  by_cases hd : f ∈ st.disk.map Prod.fst ++ st.cache.map Prod.fst
  · exact h.2.2.2.2.1 f hd
  · rw [List.mem_append] at hd
    push_neg at hd
    unfold diskKeysAt cacheKeysAt
    rw [alGet_eq_none_of_not_mem hd.1, alGet_eq_none_of_not_mem hd.2]
    rfl

theorem nodup_mid_sublist {kA kE kB kN : List String}
    (h : (kA ++ kE ++ kB).Nodup) (hsub : List.Sublist kN kE) :
    (kA ++ kN ++ kB).Nodup := by
  rw [List.nodup_append, List.nodup_append] at h ⊢
  obtain ⟨⟨h1, h2, h3⟩, h4, h5⟩ := h
  refine ⟨⟨h1, hsub.nodup h2, by
    intro y hyA hyN
    exact h3 hyA (hsub.subset hyN)⟩, h4, ?_⟩
  intro x hx
  rcases List.mem_append.mp hx with hx1 | hx1
  · exact h5 (List.mem_append_left _ hx1)
  · exact h5 (List.mem_append_right _ (hsub.subset hx1))

theorem nodup_mid_snoc {kA kE kB : List String} {x : String}
    (h : (kA ++ kE ++ kB).Nodup) (hx : x ∉ kA ++ kE ++ kB) :
    (kA ++ (kE ++ [x]) ++ kB).Nodup := by
  rw [List.nodup_append, List.nodup_append] at h ⊢
  obtain ⟨⟨h1, h2, h3⟩, h4, h5⟩ := h
  simp only [List.mem_append, not_or] at hx
  obtain ⟨⟨hxA, hxE⟩, hxB⟩ := hx
  refine ⟨⟨h1, ?_, ?_⟩, h4, ?_⟩
  · rw [List.nodup_append]
    exact ⟨h2, List.nodup_singleton x, by
      intro y hy hym
      rw [List.mem_singleton] at hym
      exact hxE (hym ▸ hy)⟩
  · intro y hy hym
    rcases List.mem_append.mp hym with hy1 | hy1
    · exact h3 hy hy1
    · rw [List.mem_singleton] at hy1
      exact hxA (hy1 ▸ hy)
  · intro y hy
    rcases List.mem_append.mp hy with hy1 | hy1
    · exact h5 (List.mem_append_left _ hy1)
    · rcases List.mem_append.mp hy1 with hy2 | hy2
      · exact h5 (List.mem_append_right _ hy2)
      · rw [List.mem_singleton] at hy2
        subst hy2
        exact hxB
  
theorem notmem_sides {kA kE kB : List String} {x : String}
    (h : (kA ++ kE ++ kB).Nodup) (hx : x ∈ kE) : x ∉ kA ∧ x ∉ kB := by
  rw [List.nodup_append, List.nodup_append] at h
  obtain ⟨⟨h1, h2, h3⟩, h4, h5⟩ := h
  exact ⟨fun hA => h3 hA hx, fun hB => h5 (List.mem_append_right _ hx) hB⟩

theorem mem_flatB {c : List (String × List BibEntry)} {e : BibEntry} :
    e ∈ flatB c ↔ ∃ p ∈ c, e ∈ p.2 := by
  unfold flatB
  rw [List.mem_flatten]
  constructor
  · rintro ⟨l, hl, he⟩
    rcases List.mem_map.mp hl with ⟨p, hp, rfl⟩
    exact ⟨p, hp, he⟩
  · rintro ⟨p, hp, he⟩
    exact ⟨p.2, List.mem_map_of_mem Prod.snd hp, he⟩

theorem key_bucket_unique {st : RepoState} (h : Inv st) {a b : String × List BibEntry}
    {k : String} (ha : a ∈ st.cache) (hb : b ∈ st.cache)
    (hka : k ∈ a.2.map BibEntry.key) (hkb : k ∈ b.2.map BibEntry.key) : a = b := by
  have hnd : (flatKeys st).Nodup := h.2.2.2.2.2
  unfold flatKeys cacheFlat at hnd
  by_contra hne
  -- two distinct cache elements both holding the key contradict Nodup
  rcases List.getElem_of_mem ha with ⟨i, hi, hia⟩
  rcases List.getElem_of_mem hb with ⟨j, hj, hjb⟩
  have hij : i ≠ j := by
    intro he
    subst he
    rw [hia] at hjb
    exact hne hjb
  -- reduce to a pairwise statement on the flattened keys
  have hpair : List.Pairwise (fun p q : String × List BibEntry =>
      ∀ x ∈ p.2.map BibEntry.key, x ∉ q.2.map BibEntry.key) st.cache := by
    have h0 : (flatB st.cache).map BibEntry.key =
        (st.cache.map (fun p => p.2.map BibEntry.key)).flatten := by
      unfold flatB
      rw [List.map_flatten, List.map_map]
      rfl
    rw [h0] at hnd
    have h1 := List.nodup_flatten.mp hnd
    have h2 := h1.2
    have h3 := (List.pairwise_map).mp h2
    exact h3.imp (fun hd x hx hxm => hd hx hxm)
  rcases Nat.lt_or_ge i j with hlt | hge
  · have := List.pairwise_iff_getElem.mp hpair i j hi hj hlt
    rw [hia, hjb] at this
    exact this k hka hkb
  · have hgt : j < i := Nat.lt_of_le_of_ne hge (fun he => hij he.symm)
    have := List.pairwise_iff_getElem.mp hpair j i hj hi hgt
    rw [hia, hjb] at this
    exact this k hkb hka



theorem alGet_map_pairs {β γ : Type _} (l : List (String × β)) (g : String × β → γ)
    (k : String) :
    alGet (l.map (fun p => (p.1, g p))) k = (l.find? (fun p => p.1 == k)).map g := by
  induction l with
  | nil => rfl
  | cons p t ih =>
    simp only [List.map_cons, List.find?]
    cases hp : (p.1 == k) with
    | true =>
      unfold alGet
      simp [List.find?, hp]
    | false =>
      rw [alGet_cons_of_neg (by simpa using hp)]
      exact ih

theorem nodup_append_singleton {l : List String} {x : String}
    (h : l.Nodup) (hx : x ∉ l) : (l ++ [x]).Nodup := by
  rw [List.nodup_append]
  exact ⟨h, List.nodup_singleton x, by
    intro y hy hym
    rw [List.mem_singleton] at hym
    exact hx (hym ▸ hy)⟩

theorem diskForm_keys (entries : List BibEntry) :
    (diskForm entries).map DiskEntry.key = entries.map BibEntry.key := by
  unfold diskForm
  rw [List.map_map]
  rfl

theorem save_not_dry {st : RepoState} (entries : List BibEntry) (f : String)
    (hdry : st.dryRun = false) :
    save_entries st entries f =
      { st with disk := alSet st.disk f (diskForm entries),
                cache := alSet st.cache f entries } := by
  unfold save_entries
  rw [if_neg (by rw [hdry]; exact Bool.false_ne_true)]

theorem load_inv {st : RepoState} (h : Inv st) :
    Inv (load_entries st false).2 ∧
    (load_entries st false).1 = cacheFlat (load_entries st false).2 ∧
    flatKeys (load_entries st false).2 = flatKeys st ∧
    (load_entries st false).2.disk = st.disk ∧
    (load_entries st false).2.changeset = st.changeset := by
  by_cases hc : st.cache = []
  · have hstep : load_entries st false =
        ((st.disk.map (fun p => (p.1, load_file st p.1)) |>.map Prod.snd).flatten,
         { st with cache := st.disk.map (fun p => (p.1, load_file st p.1)) }) := by
      unfold load_entries
      rw [if_neg (by rw [hc]; simp [List.isEmpty])]
    have hdk : ∀ f, diskKeysAt st f = [] := by
      intro f
      rw [keysComplete_full h f]
      unfold cacheKeysAt
      rw [hc]
      rfl
    have hlf : ∀ f, load_file st f = [] := by
      intro f
      unfold load_file
      cases hg : alGet st.disk f with
      | none => rfl
      | some des =>
        have h1 : des.map DiskEntry.key = [] := by
          have h2 := hdk f
          unfold diskKeysAt at h2
          rw [hg] at h2
          simpa using h2
        rw [List.map_eq_nil_iff.mp h1]
        rfl
    have hmap : st.disk.map (fun p => (p.1, load_file st p.1)) =
        st.disk.map (fun p => (p.1, ([] : List BibEntry))) := by
      apply List.map_congr_left
      intro p hp
      rw [hlf p.1]
    rw [hstep, hmap]
    have hflat : ((st.disk.map (fun p => (p.1, ([] : List BibEntry)))).map Prod.snd).flatten =
        ([] : List BibEntry) := by
      rw [List.map_map]
      rw [List.flatten_eq_nil_iff]
      intro l hl
      rcases List.mem_map.mp hl with ⟨p, hp, rfl⟩
      rfl
    have hnames : (st.disk.map (fun p => (p.1, ([] : List BibEntry)))).map Prod.fst =
        st.disk.map Prod.fst := by
      rw [List.map_map]
      rfl
    have hcget : ∀ g, alGet (st.disk.map (fun p => (p.1, ([] : List BibEntry)))) g =
        (st.disk.find? (fun p => p.1 == g)).map (fun _ => []) :=
      fun g => alGet_map_pairs st.disk (fun _ => []) g
    refine ⟨?_, ?_, ?_, rfl, rfl⟩
    · refine ⟨h.1, h.2.1, ?_, ?_, ?_, ?_⟩
      · rw [hnames]
        exact h.2.1
      · intro p hp e he
        rcases List.mem_map.mp hp with ⟨q, hq, rfl⟩
        simp at he
      · intro g hg
        unfold diskKeysAt cacheKeysAt
        simp only []
        rw [hcget g]
        have h2 := hdk g
        unfold diskKeysAt at h2
        rw [h2]
        cases st.disk.find? (fun p => p.1 == g) <;> rfl
      · unfold flatKeys cacheFlat flatB
        simp only []
        rw [hflat]
        exact List.nodup_nil
    · unfold cacheFlat flatB
      simp only []
    · unfold flatKeys cacheFlat flatB
      simp only []
      rw [hflat, hc]
      rfl
  · rw [load_false_cache_ne hc]
    exact ⟨h, rfl, rfl, rfl, rfl⟩

theorem inv_save_mid {st : RepoState} {entries : List BibEntry} {f : String}
    {A B : List (String × List BibEntry)} {es : List BibEntry}
    (h : Inv st)
    (hsplit : st.cache = A ++ (f, es) :: B)
    (hsetc : alSet st.cache f entries = A ++ (f, entries) :: B)
    (hsrc : ∀ e ∈ entries, e.source_file = f)
    (hnd : ((flatB A).map BibEntry.key ++ entries.map BibEntry.key ++
            (flatB B).map BibEntry.key).Nodup) :
    Inv (save_entries st entries f) := by
  rw [save_not_dry entries f h.1]
  have hfmem : f ∈ st.cache.map Prod.fst := by
    rw [hsplit]
    simp
  refine ⟨h.1, ?_, ?_, ?_, ?_, ?_⟩
  · -- disk names stay duplicate-free
    simp only []
    by_cases hfd : f ∈ st.disk.map Prod.fst
    · rw [alSet_names_of_mem _ hfd]
      exact h.2.1
    · rw [alSet_of_not_mem _ hfd]
      rw [List.map_append]
      exact nodup_append_singleton h.2.1 hfd
  · -- cache names unchanged
    simp only [hsetc]
    have h1 : (A ++ (f, entries) :: B).map Prod.fst =
        (A ++ (f, es) :: B).map Prod.fst := by
      simp
    rw [h1, ← hsplit]
    exact h.2.2.1
  · -- bucket consistency
    simp only [hsetc]
    intro p hp e he
    rcases List.mem_append.mp hp with hp1 | hp1
    · exact h.2.2.2.1 p (by rw [hsplit]; exact List.mem_append_left _ hp1) e he
    · rcases List.mem_cons.mp hp1 with hp2 | hp2
      · subst hp2
        exact hsrc e he
      · exact h.2.2.2.1 p
          (by rw [hsplit]; exact List.mem_append_right _ (List.mem_cons_of_mem _ hp2)) e he
  · -- per-file key agreement
    intro g hg
    unfold diskKeysAt cacheKeysAt
    simp only []
    by_cases hgf : g = f
    · subst hgf
      rw [alGet_alSet_self, alGet_alSet_self]
      simp [diskForm_keys]
    · rw [alGet_alSet_ne hgf, alGet_alSet_ne hgf]
      exact keysComplete_full h g
  · -- keys stay duplicate-free
    unfold flatKeys cacheFlat
    simp only [hsetc]
    rw [flatB_split]
    simp only [List.map_append]
    exact hnd

theorem flatKeys_split {st : RepoState} {A B : List (String × List BibEntry)}
    {f : String} {es : List BibEntry} (hsplit : st.cache = A ++ (f, es) :: B) :
    flatKeys st = (flatB A).map BibEntry.key ++ es.map BibEntry.key ++
      (flatB B).map BibEntry.key := by
  unfold flatKeys cacheFlat
  rw [hsplit, flatB_split]
  simp

theorem inv_save_sub {st : RepoState} {entries : List BibEntry} {f : String}
    {es : List BibEntry} (h : Inv st) (hget : alGet st.cache f = some es)
    (hsrc : ∀ e ∈ entries, e.source_file = f)
    (hsub : List.Sublist (entries.map BibEntry.key) (es.map BibEntry.key)) :
    Inv (save_entries st entries f) := by
  obtain ⟨A, B, hsplit, _, _, hset⟩ := alSplit h.2.2.1 hget
  have hnd0 := h.2.2.2.2.2
  rw [flatKeys_split hsplit] at hnd0
  exact inv_save_mid h hsplit (hset entries) hsrc (nodup_mid_sublist hnd0 hsub)

theorem inv_save_app {st : RepoState} {e : BibEntry} {f : String}
    {es : List BibEntry} (h : Inv st) (hget : alGet st.cache f = some es)
    (hsrces : ∀ x ∈ es, x.source_file = f) (he : e.source_file = f)
    (hknew : e.key ∉ flatKeys st) :
    Inv (save_entries st (es ++ [e]) f) := by
  obtain ⟨A, B, hsplit, _, _, hset⟩ := alSplit h.2.2.1 hget
  have hnd0 := h.2.2.2.2.2
  rw [flatKeys_split hsplit] at hnd0
  have hknew2 := hknew
  rw [flatKeys_split hsplit] at hknew2
  refine inv_save_mid h hsplit (hset (es ++ [e])) ?_ ?_
  · intro x hx
    rcases List.mem_append.mp hx with hx1 | hx1
    · exact hsrces x hx1
    · rw [List.mem_singleton] at hx1
      exact hx1 ▸ he
  · rw [List.map_append]
    exact nodup_mid_snoc hnd0 hknew2



theorem pair_mem_of_alGet_some {α : Type _} {l : List (String × α)} {k : String}
    {v : α} (h : alGet l k = some v) : (k, v) ∈ l := by
  unfold alGet at h
  cases hf : l.find? (fun p => p.1 == k) with
  | none => rw [hf] at h; cases h
  | some p =>
    rw [hf] at h
    have hp1 : p.1 = k := by simpa using List.find?_some hf
    have hp2 : p.2 = v := by simpa using h
    have hpm := List.mem_of_find?_eq_some hf
    rw [← hp1, ← hp2]
    simpa using hpm

theorem alGet_some_of_mem {α : Type _} {l : List (String × α)} {k : String}
    (h : k ∈ l.map Prod.fst) : ∃ v, alGet l k = some v := by
  induction l with
  | nil => simp at h
  | cons p t ih =>
    by_cases hp : (p.1 == k) = true
    · have hpk : p.1 = k := by simpa using hp
      exact ⟨p.2, by rw [← hpk]; exact alGet_cons_self⟩
    · rw [alGet_cons_of_neg (by simpa using hp)]
      apply ih
      rw [List.map_cons] at h
      rcases List.mem_cons.mp h with h1 | h1
      · exact absurd (by simp [h1]) hp
      · exact h1

theorem names_ne_nil_of_mem {α : Type _} {l : List (String × α)} {k : String}
    (h : k ∈ l.map Prod.fst) : l ≠ [] := by
  intro he
  rw [he] at h
  simp at h

theorem get_entry_eq (st : RepoState) (k : String) :
    get_entry st k =
      ((load_entries st false).1.find? (fun e => e.key == k),
       (load_entries st false).2) := rfl

theorem get_entry_inv {st : RepoState} {k : String} (h : Inv st) :
    Inv (get_entry st k).2 ∧ (get_entry st k).2.disk = st.disk ∧
    flatKeys (get_entry st k).2 = flatKeys st ∧
    (get_entry st k).2.changeset = st.changeset ∧
    ((get_entry st k).1 = none → k ∉ flatKeys (get_entry st k).2) ∧
    (∀ e, (get_entry st k).1 = some e →
      e ∈ cacheFlat (get_entry st k).2 ∧ e.key = k) := by
  obtain ⟨h1, h2, h3, h4, h5⟩ := load_inv h
  rw [get_entry_eq]
  refine ⟨h1, h4, h3, h5, ?_, ?_⟩
  · intro hnone hk
    have hn2 : (load_entries st false).1.find? (fun e => e.key == k) = none := hnone
    unfold flatKeys at hk
    rcases List.mem_map.mp hk with ⟨e, he, hek⟩
    rw [← h2] at he
    have h6 := List.find?_eq_none.mp hn2 e he
    simp only [beq_iff_eq] at h6
    exact h6 hek
  · intro e hfind
    have hf2 : (load_entries st false).1.find? (fun x => x.key == k) = some e := hfind
    have h6 := List.mem_of_find?_eq_some hf2
    have h7 := List.find?_some hf2
    rw [← h2]
    exact ⟨h6, by simpa using h7⟩

theorem bucket_of_mem {st : RepoState} {e : BibEntry} (h : Inv st)
    (he : e ∈ cacheFlat st) :
    ∃ es, alGet st.cache e.source_file = some es ∧ e ∈ es ∧
      (e.source_file, es) ∈ st.cache := by
  rcases mem_flatB.mp he with ⟨p, hp, hep⟩
  have hsf : e.source_file = p.1 := h.2.2.2.1 p hp e hep
  have hpair : (p.1, p.2) ∈ st.cache := by
    cases p
    exact hp
  refine ⟨p.2, ?_, hep, ?_⟩
  · rw [hsf]
    exact alGet_of_pair_mem h.2.2.1 hpair
  · rw [hsf]
    exact hpair

theorem flatB_append (X Y : List (String × List BibEntry)) :
    flatB (X ++ Y) = flatB X ++ flatB Y := by
  unfold flatB
  simp

theorem gebf_inv {st : RepoState} (f : String) (h : Inv st) :
    Inv (get_entries_by_file st f).2 ∧
    (get_entries_by_file st f).2.disk = st.disk ∧
    cacheFlat (get_entries_by_file st f).2 = cacheFlat st ∧
    (get_entries_by_file st f).2.changeset = st.changeset ∧
    (get_entries_by_file st f).2.cache ≠ [] ∧
    alGet (get_entries_by_file st f).2.cache f = some (get_entries_by_file st f).1 ∧
    (∀ x ∈ (get_entries_by_file st f).1, x.source_file = f) := by
  unfold get_entries_by_file
  cases hg : alGet st.cache f with
  | some es =>
    have hpm := pair_mem_of_alGet_some hg
    refine ⟨h, rfl, rfl, rfl, ?_, hg, ?_⟩
    · exact names_ne_nil_of_mem (mem_of_alGet_some hg)
    · intro x hx
      exact h.2.2.2.1 (f, es) hpm x hx
  | none =>
    have hfn : f ∉ st.cache.map Prod.fst := by
      intro hm
      rcases alGet_some_of_mem hm with ⟨v, hv⟩
      rw [hv] at hg
      cases hg
    have hck : cacheKeysAt st f = [] := by
      unfold cacheKeysAt
      rw [hg]
      rfl
    have hlf : load_file st f = [] := by
      unfold load_file
      cases hd : alGet st.disk f with
      | none => rfl
      | some des =>
        have h1 : diskKeysAt st f = [] := by rw [keysComplete_full h f, hck]
        unfold diskKeysAt at h1
        rw [hd] at h1
        have h1b : des.map DiskEntry.key = [] := by simpa using h1
        have hdes : des = [] := List.map_eq_nil_iff.mp h1b
        subst hdes
        rfl
    rw [hlf]
    have hset : alSet st.cache f [] = st.cache ++ [(f, [])] := alSet_of_not_mem [] hfn
    have hz : flatB [(f, ([] : List BibEntry))] = [] := by
      unfold flatB
      simp
    refine ⟨?_, rfl, ?_, rfl, ?_, alGet_alSet_self, by simp⟩
    · refine ⟨h.1, h.2.1, ?_, ?_, ?_, ?_⟩
      · simp only [hset, List.map_append]
        exact nodup_append_singleton h.2.2.1 hfn
      · simp only [hset]
        intro p hp e he
        rcases List.mem_append.mp hp with hp1 | hp1
        · exact h.2.2.2.1 p hp1 e he
        · rw [List.mem_singleton] at hp1
          subst hp1
          simp at he
      · intro g hg2
        unfold diskKeysAt cacheKeysAt
        simp only []
        by_cases hgf : g = f
        · subst hgf
          have h1 : diskKeysAt st g = [] := by rw [keysComplete_full h g, hck]
          unfold diskKeysAt at h1
          rw [alGet_alSet_self, h1]
          rfl
        · rw [alGet_alSet_ne hgf]
          exact keysComplete_full h g
      · unfold flatKeys cacheFlat
        simp only [hset, flatB_append, hz, List.append_nil]
        exact h.2.2.2.2.2
    · unfold cacheFlat
      simp only [hset, flatB_append, hz, List.append_nil]
    · simp [hset]



theorem inv_add (st : RepoState) (entry : BibEntry) (tgt : Option String)
    (h : Inv st) : Inv (add_entry st entry tgt).2 := by
  obtain ⟨hI1, hdisk1, hflat1, hcs1, hcne1, hget1, hsrc1⟩ :=
    gebf_inv (tgt.getD (find_target_file st entry.entry_type)) h
  have hload := load_false_cache_ne hcne1
  have hge2 : (get_entry (get_entries_by_file st
      (tgt.getD (find_target_file st entry.entry_type))).2 entry.key).2 =
      (get_entries_by_file st (tgt.getD (find_target_file st entry.entry_type))).2 := by
    rw [get_entry_eq, hload]
  cases hq : (get_entry (get_entries_by_file st
      (tgt.getD (find_target_file st entry.entry_type))).2 entry.key).1 with
  | some ex =>
    have hstep : (add_entry st entry tgt).2 =
        (get_entry (get_entries_by_file st
          (tgt.getD (find_target_file st entry.entry_type))).2 entry.key).2 := by
      unfold add_entry
      simp only [hq]
    rw [hstep, hge2]
    exact hI1
  | none =>
    have hknew0 := (get_entry_inv (k := entry.key) hI1).2.2.2.2.1 hq
    rw [hge2] at hknew0
    have hstep : (add_entry st entry tgt).2 =
        save_entries (get_entry (get_entries_by_file st
            (tgt.getD (find_target_file st entry.entry_type))).2 entry.key).2
          ((get_entries_by_file st (tgt.getD (find_target_file st entry.entry_type))).1 ++
            [{ entry with source_file := tgt.getD (find_target_file st entry.entry_type) }])
          (tgt.getD (find_target_file st entry.entry_type)) := by
      unfold add_entry
      simp only [hq]
    rw [hstep, hge2]
    unfold flatKeys at hknew0
    exact inv_save_app hI1 hget1 hsrc1 rfl (by unfold flatKeys; exact hknew0)

theorem inv_remove (st : RepoState) (k : String) (h : Inv st) :
    Inv (remove_entry st k).2 := by
  obtain ⟨hI, hdisk, hflat, hcs, hnone, hsome⟩ := get_entry_inv (k := k) h
  cases hq : (get_entry st k).1 with
  | none =>
    have hstep : (remove_entry st k).2 = (get_entry st k).2 := by
      unfold remove_entry
      simp only [hq]
    rw [hstep]
    exact hI
  | some e =>
    obtain ⟨hmem, hkey⟩ := hsome e hq
    obtain ⟨es, hget, hein, hpair⟩ := bucket_of_mem hI hmem
    have hstep : (remove_entry st k).2 =
        save_entries (get_entry st k).2 (es.filter (fun x => !(x.key == k)))
          e.source_file := by
      unfold remove_entry
      simp only [hq, hget, Option.getD_some]
    rw [hstep]
    refine inv_save_sub hI hget ?_ ?_
    · intro x hx
      exact hI.2.2.2.1 (e.source_file, es) hpair x (List.mem_of_mem_filter hx)
    · exact (List.filter_sublist es).map BibEntry.key

theorem inv_update (st : RepoState) (k : String)
    (ch : List (String × Option String)) (h : Inv st) :
    Inv (update_entry st k ch).2 := by
  obtain ⟨hI, hdisk, hflat, hcs, hnone, hsome⟩ := get_entry_inv (k := k) h
  cases hq : (get_entry st k).1 with
  | none =>
    have hstep : (update_entry st k ch).2 = (get_entry st k).2 := by
      unfold update_entry
      simp only [hq]
    rw [hstep]
    exact hI
  | some e =>
    obtain ⟨hmem, hkey⟩ := hsome e hq
    obtain ⟨es, hget, hein, hpair⟩ := bucket_of_mem hI hmem
    have hstep : (update_entry st k ch).2 =
        save_entries (get_entry st k).2
          (es.map (fun x => if x.key == k then
            { e with fields := apply_updates e.fields ch } else x))
          e.source_file := by
      unfold update_entry
      simp only [hq, hget, Option.getD_some]
    rw [hstep]
    refine inv_save_sub hI hget ?_ ?_
    · intro x hx
      rcases List.mem_map.mp hx with ⟨y, hy, hxy⟩
      by_cases hyk : (y.key == k) = true
      · rw [← hxy, if_pos hyk]
      · rw [← hxy, if_neg hyk]
        exact hI.2.2.2.1 (e.source_file, es) hpair y hy
    · have hmapeq : (es.map (fun x => if x.key == k then
          { e with fields := apply_updates e.fields ch } else x)).map BibEntry.key =
          es.map BibEntry.key := by
        rw [List.map_map]
        apply List.map_congr_left
        intro x hx
        by_cases hxk : (x.key == k) = true
        · simp only [Function.comp]
          rw [if_pos hxk]
          have hx2 : x.key = k := by simpa using hxk
          simp [hkey, hx2]
        · simp only [Function.comp]
          rw [if_neg hxk]
      rw [hmapeq]

theorem inv_move (st : RepoState) (k target : String) (h : Inv st) :
    Inv (move_entry st k target).2 := by
  obtain ⟨hI, hdisk, hflat, hcs, hnone, hsome⟩ := get_entry_inv (k := k) h
  cases hq : (get_entry st k).1 with
  | none =>
    have hstep : (move_entry st k target).2 = (get_entry st k).2 := by
      unfold move_entry
      simp only [hq]
    rw [hstep]
    exact hI
  | some e =>
    by_cases hsf : (e.source_file == target) = true
    · have hstep : (move_entry st k target).2 = (get_entry st k).2 := by
        unfold move_entry
        simp only [hq, hsf, if_true]
      rw [hstep]
      exact hI
    · obtain ⟨hmem, hkey⟩ := hsome e hq
      obtain ⟨es, hget, hein, hpair⟩ := bucket_of_mem hI hmem
      -- the save on the source file keeps the invariant
      have hsave : Inv (save_entries (get_entry st k).2
          (es.filter (fun x => !(x.key == k))) e.source_file) := by
        refine inv_save_sub hI hget ?_ ?_
        · intro x hx
          exact hI.2.2.2.1 (e.source_file, es) hpair x (List.mem_of_mem_filter hx)
        · exact (List.filter_sublist es).map BibEntry.key
      -- the looked-up record is the only one with the key, so the in-place
      -- mutation branch is not taken
      have hfindb : (get_entry st k).2.cache.find?
          (fun b => b.2.any (fun x => x.key == k)) = some (e.source_file, es) := by
        apply find?_eq_of_mem_of_unique hpair
        · rw [List.any_eq_true]
          exact ⟨e, hein, by simp [hkey]⟩
        · intro y hy hpy
          rw [List.any_eq_true] at hpy
          rcases hpy with ⟨x, hxy, hxk⟩
          have hxk2 : x.key = k := by simpa using hxk
          apply key_bucket_unique hI hy hpair
          · exact hxk2 ▸ List.mem_map_of_mem BibEntry.key hxy
          · exact hkey ▸ List.mem_map_of_mem BibEntry.key hein
      have hdry2 : (save_entries (get_entry st k).2
          (es.filter (fun x => !(x.key == k))) e.source_file).dryRun = false := hsave.1
      have hcond : ((save_entries (get_entry st k).2
            (es.filter (fun x => !(x.key == k))) e.source_file).dryRun ||
          !((((get_entry st k).2.cache.find?
              (fun b => b.2.any (fun x => x.key == k))).map Prod.fst) ==
            some e.source_file)) = false := by
        rw [hdry2, hfindb]
        simp
      have hstep : (move_entry st k target).2 =
          (add_entry (save_entries (get_entry st k).2
              (es.filter (fun x => !(x.key == k))) e.source_file)
            { e with source_file := target } (some target)).2 := by
        unfold move_entry
        simp only [hq, hsf, hget, Option.getD_some, hcond, if_false, Bool.false_eq_true]
        cases (add_entry (save_entries (get_entry st k).2
            (es.filter (fun x => !(x.key == k))) e.source_file)
          { e with source_file := target } (some target)).1 <;> rfl
      rw [hstep]
      exact inv_add _ _ _ hsave

theorem inv_applyOp (st : RepoState) (op : RepoOp) (h : Inv st) :
    Inv (applyOp st op) := by
  cases op with
  | add e t => exact inv_add st e t h
  | remove k => exact inv_remove st k h
  | update k ch => exact inv_update st k ch h
  | move k t => exact inv_move st k t h

theorem inv_applyOps (st : RepoState) (ops : List RepoOp) (h : Inv st) :
    Inv (applyOps st ops) := by
  induction ops generalizing st with
  | nil => exact h
  | cons op rest ih => exact ih (applyOp st op) (inv_applyOp st op h)

/-- C1 (amended): starting from a repository state satisfying the store
invariant `Inv` (dry-run off, duplicate-free file maps, a cache fully
agreeing with the disk per file — as produced by a full `load_entries` —
and globally duplicate-free keys), after any sequence of
add/remove/update/move operations, any two records returned by
`load_entries` with equal keys are the same record. -/
theorem claim_C1 :
    ∀ (st : RepoState) (ops : List RepoOp), Inv st →
      ∀ e1 ∈ (load_entries (applyOps st ops) false).1,
      ∀ e2 ∈ (load_entries (applyOps st ops) false).1,
        e1.key = e2.key → e1 = e2 := by
  intro st ops h e1 h1 e2 h2 hk
  have hI := inv_applyOps st ops h
  obtain ⟨hI2, heq, hfl, _, _⟩ := load_inv hI
  have hnd : ((load_entries (applyOps st ops) false).1.map BibEntry.key).Nodup := by
    rw [heq]
    exact hI2.2.2.2.2.2
  exact List.inj_on_of_nodup_map hnd h1 h2 hk



/-- C1 counterexample to the original statement: a store whose records
have pairwise-distinct keys but whose cache is cold. `add_entry` of a
record reusing the key "k" into a second file succeeds (the cold-cache
duplicate check only sees the target file), leaving the store with two
distinct records of the same key. -/
theorem claim_C1_cex :
    ((load_entries stC4 true).1.map BibEntry.key).Nodup ∧
    stC4.dryRun = false ∧
    ∃ e1 ∈ (load_entries
        (applyOps stC4 [RepoOp.add entDup (some "r/bibtex/b.bib")]) true).1,
    ∃ e2 ∈ (load_entries
        (applyOps stC4 [RepoOp.add entDup (some "r/bibtex/b.bib")]) true).1,
      e1.key = e2.key ∧ e1 ≠ e2 := by decide

/-- C1 witness: the loaded one-record repository satisfies `Inv`, and the
uniqueness theorem applies after adding a fresh key. -/
theorem claim_C1_witness :
    Inv stWarm ∧ entA = entA :=
  ⟨by decide,
   claim_C1 stWarm
     [RepoOp.add ⟨"k2", "article", [("title", some "T2")], "x"⟩ none]
     (by decide) entA (by decide) entA (by decide) rfl⟩

end Bibmgr
